import Mathlib

/-!
Verification of ctorrent: the driver (`main.cpp`) and the utilities (`util/auxiliar.cpp`).

A shallow embedding of the parts of the two source files that the verified properties talk
about, followed by the properties.

* A `std::string` is a list of bytes, each a natural number below 256.
* A `char` read from a string is the signed value of its byte (`charValue`); the C library
  classification functions are those of the "C" locale, the program never changing it.
* A 32-bit `int` is represented by its value (`Int`) where arithmetic matters and by its
  two's complement bit pattern (a `Nat` below `2^32`) where only shifts and bitwise operators
  are applied to it.
* The classes `Torrent`, `TorrentMeta`, `TorrentFileManager` and `Connection` are defined
  outside these two files. The driver is modelled against an arbitrary environment (`World`)
  that answers every call, and it records every call it makes.
* A loop that need not end is run for a bounded number of iterations (`fuel`).
-/

namespace CTorrent

/-! ## Byte strings -/

/-- The bytes of an ASCII string literal. -/
def bytes (s : String) : List Nat := s.toList.map Char.toNat

/-- Value of the `char` holding byte `b` (signed `char`). -/
def charValue (b : Nat) : Int := if b < 128 then (b : Int) else (b : Int) - 256

/-- Byte of a `char` from its value, `(unsigned char)c`. -/
def unsignedChar (c : Int) : Nat := (c % 256).toNat

/-- C-locale `isalnum` on an `int` argument (false outside ASCII letters and digits). -/
def isalnum (c : Int) : Bool :=
  (decide (48 ≤ c) && decide (c ≤ 57)) || (decide (65 ≤ c) && decide (c ≤ 90)) ||
    (decide (97 ≤ c) && decide (c ≤ 122))

/-- C-locale `tolower` on an `int` argument: only `A`..`Z` change. -/
def tolower (c : Int) : Int := if 65 ≤ c ∧ c ≤ 90 then c + 32 else c

/-! ## `urlencode` (auxiliar.cpp:143) -/

/-- Digit `d` as printed by a stream in `std::hex << std::uppercase` mode. -/
def hexDigit (d : Nat) : Nat := (bytes "0123456789ABCDEF").getD d 0

/-- Digits of `n` in base 16, most significant first, pushed in front of `acc`. -/
def hexDigits : Nat → Nat → List Nat → List Nat
  | 0, _, acc => acc
  | fuel + 1, n, acc =>
    if n / 16 = 0 then hexDigit (n % 16) :: acc
    else hexDigits fuel (n / 16) (hexDigit (n % 16) :: acc)

/-- Output of `escaped << n` for a non-negative `int` on a hex, uppercase stream, before padding. -/
def toHex (n : Nat) : List Nat := hexDigits (n + 1) n []

/-- Padding applied by `std::setw(w)` with fill character `fill` (right adjusted). -/
def setw (w fill : Nat) (s : List Nat) : List Nat := List.replicate (w - s.length) fill ++ s

/-- One pass of the loop body of `urlencode`: the stream contents after byte `b`. -/
def urlencodeStep (escaped : List Nat) (b : Nat) : List Nat :=
  let c := charValue b
  if isalnum c || c == ('-'.toNat : Int) || c == ('_'.toNat : Int) || c == ('.'.toNat : Int)
      || c == ('~'.toNat : Int) then
    escaped ++ [unsignedChar c]
  else
    escaped ++ ['%'.toNat] ++ setw 2 ('0'.toNat) (toHex (unsignedChar c))

/-- The function `urlencode`: the contents of the stream after the loop over `value`. -/
def urlencode (value : List Nat) : List Nat := value.foldl urlencodeStep []

/-- RFC 3986 unreserved bytes: ASCII letters, ASCII digits, `-`, `_`, `.`, `~`. -/
def unreserved (b : Nat) : Bool :=
  (decide ('a'.toNat ≤ b) && decide (b ≤ 'z'.toNat)) || (decide ('A'.toNat ≤ b) && decide (b ≤ 'Z'.toNat))
    || (decide ('0'.toNat ≤ b) && decide (b ≤ '9'.toNat))
    || b == '-'.toNat || b == '_'.toNat || b == '.'.toNat || b == '~'.toNat

/-- The token the rule assigns to one byte: the byte itself, or `%` and its two hex digits. -/
def percentToken (b : Nat) : List Nat :=
  if unreserved b then [b] else ['%'.toNat, hexDigit (b / 16), hexDigit (b % 16)]

/-! ## 32-bit integers -/

/-- Conversion of an integer value to `unsigned int`: its residue modulo `2^32`. -/
def toUInt32 (v : Int) : Nat := (v % 2 ^ 32).toNat

/-- Value of the `int` whose two's complement bit pattern is `p`. -/
def toInt32 (p : Nat) : Int :=
  if p % 2 ^ 32 < 2 ^ 31 then ((p % 2 ^ 32 : Nat) : Int) else ((p % 2 ^ 32 : Nat) : Int) - 2 ^ 32

/-- Bit pattern of `a << k` computed on 32-bit `int`. C++ leaves a count of 32 or more
undefined; the model follows the x86 shift instruction, which uses the count modulo 32. -/
def shl32 (a k : Nat) : Nat := (a * 2 ^ (k % 32)) % 2 ^ 32

/-- Number of zero bits above the highest set bit among the low `w` bits of `x`,
scanning from bit `w - 1` down. -/
def clzScan : Nat → Nat → Nat
  | 0, _ => 0
  | w + 1, x => if x.testBit w then 0 else clzScan w x + 1

/-- The compiler builtin `__builtin_clz` on a 32-bit `unsigned int`. The builtin is
undefined at 0; the scan returns 32 there, as the `lzcnt` instruction does. -/
def builtin_clz (x : Nat) : Nat := clzScan 32 x

/-! ## Request-size rounding (main.cpp:166) -/

/-- Value of the `int` expression `1 << (32 - __builtin_clz(maxRequestSize - 1))`, which
main.cpp:166 assigns to `maxRequestSize` when the `piecesize` option is given.
`maxRequestSize` is declared outside these files; the argument of the builtin is its value
less one converted to `unsigned int`. The assignment converts the `int` result to the type
of `maxRequestSize`, which changes nothing for results from 0 to `2^31 - 1`. -/
def roundRequestSize (maxRequestSize : Nat) : Int :=
  toInt32 (shl32 1 (32 - builtin_clz (toUInt32 ((maxRequestSize : Int) - 1))))

/-! ## `parseUrl` (auxiliar.cpp:37)

An iterator into `str` is represented by the part of the string from its position to the
end, so `str.end()` is the empty list. -/

/-- `std::search(it, str.end(), pat.begin(), pat.end())` for a non-empty pattern: the position
of the first occurrence of `pat` at or after `it`, the end if there is none. -/
def search (pat : List Nat) : List Nat → List Nat
  | [] => []
  | x :: xs => if pat.isPrefixOf (x :: xs) then x :: xs else search pat xs

/-- `std::find(it, str.end(), c)`: the position of the first `c` at or after `it`, the end
if there is none. -/
def find (c : Nat) : List Nat → List Nat
  | [] => []
  | x :: xs => if x = c then x :: xs else find c xs

/-- The characters in the range `[first, last)`, for `last` not before `first`. -/
def between (first last : List Nat) : List Nat := first.take (first.length - last.length)

/-- One step of `std::transform(.., std::back_inserter(s), tolower)`: the `char` is passed as
an `int`, and the `int` result is stored back as a `char`. -/
def lowerByte (b : Nat) : Nat := unsignedChar (tolower (charValue b))

/-- The function `parseUrl`; the result is the tuple (protocol, host, port). -/
def parseUrl (str : List Nat) : List Nat × List Nat × List Nat :=
  let protocol_end := bytes "://"
  let protocolIter := search protocol_end str
  if protocolIter = [] then
    ([], [], [])
  else
    let protocol := (between str protocolIter).map lowerByte
    let protocolIter := protocolIter.drop protocol_end.length
    let hostIter := find (':'.toNat) protocolIter
    let hostIter := if hostIter = [] then find ('/'.toNat) protocolIter else hostIter
    let host := (between protocolIter hostIter).map lowerByte
    let portIter := find (':'.toNat) hostIter
    if portIter = [] then
      (protocol, host, protocol)
    else
      let queryBegin := find ('/'.toNat) portIter
      let port :=
        if queryBegin ≠ [] then between (portIter.drop 1) queryBegin
        else between (portIter.drop 1) []
      (protocol, host, port)

/-- ASCII lower-casing of a byte string: `A`..`Z` become `a`..`z`, every other byte stays. -/
def lowercase (s : List Nat) : List Nat :=
  s.map (fun b => if 'A'.toNat ≤ b ∧ b ≤ 'Z'.toNat then b + 32 else b)

/-! ## `ip2str` and `str2ip` (auxiliar.cpp:98, 105) -/

/-- Digits of `n` in base 10, most significant first, pushed in front of `acc`. -/
def decDigits : Nat → Nat → List Nat → List Nat
  | 0, _, acc => acc
  | fuel + 1, n, acc =>
    if n / 10 = 0 then ('0'.toNat + n % 10) :: acc
    else decDigits fuel (n / 10) (('0'.toNat + n % 10) :: acc)

/-- Text of the `printf` conversion `%u`: the decimal numeral of `n`. -/
def dec (n : Nat) : List Nat := decDigits (n + 1) n []

/-- Text produced by the format `"%u.%u.%u.%u"`. -/
def formatDotted (a b c d : Nat) : List Nat :=
  dec a ++ bytes "." ++ dec b ++ bytes "." ++ dec c ++ bytes "." ++ dec d

/-- The function `ip2str` on a `uint32_t`: `sprintf` writes the text and a terminating NUL
into `char buffer[17]`; a text that does not fit overruns the buffer and has no result. -/
def ip2str (ip : Nat) : Option (List Nat) :=
  let text := formatDotted (ip &&& 0xFF) ((ip >>> 8) &&& 0xFF) ((ip >>> 16) &&& 0xFF) (ip >>> 24)
  if text.length + 1 ≤ 17 then some text else none

/-- Element `i` of `ip.c_str()`: the bytes of the string, then a NUL; nothing beyond. -/
def c_str (s : List Nat) (i : Nat) : Option Nat :=
  if i < s.length then s[i]? else if i = s.length then some 0 else none

/-- The function `str2ip`: each `uint8_t` is promoted to `int`, shifted and or-ed as a 32-bit
pattern, and the pattern is returned as `uint32_t`. -/
def str2ip (ip : List Nat) : Option Nat :=
  match c_str ip 0, c_str ip 1, c_str ip 2, c_str ip 3 with
  | some c0, some c1, some c2, some c3 =>
    some ((shl32 c0 24 ||| shl32 c1 16 ||| shl32 c2 8 ||| c3) % 2 ^ 32)
  | _, _, _, _ => none

/-! ## The driver `main` (main.cpp:113)

`Torrent`, `TorrentMeta`, `TorrentFileManager` and `Connection` are defined outside the two
files. Every call the driver makes on them is recorded, and the value a call returns is
supplied by a `World`, a function of the calls made so far. -/

/-- Member functions the driver calls on torrent `i`, on its `meta()` and on its
`fileManager()`. `open_` is `Torrent::open`. -/
inductive Method where
  | open_ | meta | fileManager
  | prepare (port : Int) (seed : Bool)
  | isFinished | finish | activePeers | checkTrackers | nextConnection | hasTrackers
  | downloadSpeed | computeDownloaded | uploadedBytes | hashMisses | wastedBytes | eta
  | name | totalSize | pieceLength
  | completedPieces | pending | totalPieces
  deriving DecidableEq, Repr

/-- A call made by the driver: a member function on torrent `i`, or `Connection::poll`. -/
inductive Call where
  | torrent (i : Nat) (m : Method)
  | poll
  deriving DecidableEq, Repr

/-- The environment: the value returned by the most recent call (the head of the list), given
all calls made so far, most recent first. A `bool` result is true when the value is not 0;
for `prepare`, 0 is `DownloadState::None`, 1 is `DownloadState::Completed`, and every other
value is one of the remaining states. -/
abbrev World := List Call → Nat

/-- The options after command line parsing, and the number of torrent files. -/
structure Config where
  noseed : Bool
  nodownload : Bool
  startport : Int
  max_peers : Nat
  total : Nat
  deriving DecidableEq, Repr

/-- The three masks the download phase works on. -/
structure Masks where
  total_bits : Nat
  completed : Nat
  errors : Nat
  deriving DecidableEq, Repr

/-- Line printed for a torrent by the final report. -/
inductive Label where
  | Completed | WentWrong | FailedToSeed | NoLabel
  deriving DecidableEq, Repr

/-- The local variables of `main`, with three records kept alongside: the calls made (most
recent first), the value of the masks after every assignment to one of them (most recent
first, starting with the initial value), and the labels of the final report. -/
structure Driver where
  total_bits : Nat
  completed : Nat
  errors : Nat
  eseed : Nat
  started : Nat
  startport : Int
  calls : List Call
  trail : List Masks
  report : List Label
  deriving DecidableEq, Repr

/-- Conversion of an `int` value to the 64-bit `size_t`. -/
def toSizeT (v : Int) : Nat := (v % 2 ^ 64).toNat

/-- The `int` expression `1 << i` converted to `size_t`, as in `completed |= 1 << i`. -/
def bit (i : Nat) : Nat := toSizeT (toInt32 (shl32 1 i))

/-- Value returned by call `c` made in state `d`. -/
def answer (w : World) (d : Driver) (c : Call) : Nat := w (c :: d.calls)

/-- State after making call `c`. -/
def record (d : Driver) (c : Call) : Driver := { d with calls := c :: d.calls }

/-- State after the calls `cs`, made in that order. -/
def recordAll (d : Driver) (cs : List Call) : Driver := cs.foldl record d

/-- Current value of the masks. -/
def Driver.masks (d : Driver) : Masks := ⟨d.total_bits, d.completed, d.errors⟩

/-- The assignment `total_bits |= 1 << i`. -/
def orTotalBits (d : Driver) (i : Nat) : Driver :=
  { d with total_bits := d.total_bits ||| bit i,
           trail := ⟨d.total_bits ||| bit i, d.completed, d.errors⟩ :: d.trail }

/-- The assignment `completed |= 1 << i`. -/
def orCompleted (d : Driver) (i : Nat) : Driver :=
  { d with completed := d.completed ||| bit i,
           trail := ⟨d.total_bits, d.completed ||| bit i, d.errors⟩ :: d.trail }

/-- The assignment `errors |= 1 << i`. -/
def orErrors (d : Driver) (i : Nat) : Driver :=
  { d with errors := d.errors ||| bit i,
           trail := ⟨d.total_bits, d.completed, d.errors ||| bit i⟩ :: d.trail }

/-- The assignment `eseed |= 1 << i`. -/
def orEseed (d : Driver) (i : Nat) : Driver := { d with eseed := d.eseed ||| bit i }

/-- The variables at main.cpp:181, before the set-up loop. -/
def initial (cfg : Config) : Driver :=
  { total_bits := 0, completed := 0, errors := 0, eseed := 0, started := 0,
    startport := cfg.startport, calls := [], trail := [⟨0, 0, 0⟩], report := [] }

/-- Body of the set-up loop (main.cpp:183-221) for index `i`. -/
def setupStep (w : World) (cfg : Config) (d : Driver) (i : Nat) : Driver :=
  let d := orTotalBits d i
  let opened := answer w d (.torrent i .open_)
  let d := record d (.torrent i .open_)
  if opened = 0 then
    orErrors d i
  else
    let d := record d (.torrent i .meta)
    if cfg.nodownload then
      let d := recordAll d [.torrent i .fileManager, .torrent i .name, .torrent i .totalSize,
        .torrent i .name, .torrent i .completedPieces, .torrent i .totalPieces,
        .torrent i .name, .torrent i .pieceLength]
      orCompleted d i
    else
      let c := Call.torrent i (.prepare d.startport (!cfg.noseed))
      let state := answer w d c
      let d := record { d with startport := d.startport + 1 } c
      match state with
      | 0 => { d with started := (d.started + 1) % 2 ^ 64 }
      | 1 => orCompleted d i
      | _ => orErrors d i

/-- The set-up loop (main.cpp:182-222). -/
def setup (w : World) (cfg : Config) : Driver :=
  (List.range cfg.total).foldl (setupStep w cfg) (initial cfg)

/-- The accessors read by `print_stats`, in the order of its argument lists. -/
def statsMethods : List Method :=
  [.meta, .fileManager, .name, .downloadSpeed, .computeDownloaded, .totalSize,
    .uploadedBytes, .hashMisses, .wastedBytes, .eta, .completedPieces, .pending, .totalPieces,
    .activePeers]

/-- The function `print_stats` on torrent `i` (main.cpp:79): it reads the accessors. -/
def print_stats (d : Driver) (i : Nat) : Driver :=
  recordAll d (statsMethods.map (Call.torrent i))

/-- The function `print_all_stats` (main.cpp:92). -/
def print_all_stats (d : Driver) (total : Nat) : Driver :=
  (List.range total).foldl print_stats d

/-- Body of the `for` loop of the download loop (main.cpp:238-251) for index `i`. -/
def downloadStep (w : World) (cfg : Config) (d : Driver) (i : Nat) : Driver :=
  if d.errors &&& bit i ≠ 0 then
    d
  else
    let finished := answer w d (.torrent i .isFinished)
    let d := record d (.torrent i .isFinished)
    if finished ≠ 0 then
      let d := if !cfg.noseed then record d (.torrent i .finish) else d
      orCompleted d i
    else
      let d :=
        if cfg.max_peers = 0 then record d (.torrent i .checkTrackers)
        else
          let peers := answer w d (.torrent i .activePeers)
          let d := record d (.torrent i .activePeers)
          if peers < cfg.max_peers then record d (.torrent i .checkTrackers) else d
      if !cfg.noseed then record d (.torrent i .nextConnection) else d

/-- The `for` loop of the download loop (main.cpp:237-252). -/
def downloadPass (w : World) (cfg : Config) (d : Driver) : Driver :=
  (List.range cfg.total).foldl (downloadStep w cfg) d

/-- One iteration of the download loop (main.cpp:237-256). -/
def downloadIteration (w : World) (cfg : Config) (d : Driver) : Driver :=
  print_all_stats (record (downloadPass w cfg d) .poll) cfg.total

/-- The condition of the download loop, `total_bits ^ (completed | errors)`. -/
def downloadCond (d : Driver) : Bool := (d.total_bits ^^^ (d.completed ||| d.errors)) != 0

/-- The download loop (main.cpp:236-257), run for at most `fuel` iterations. -/
def downloadLoop (w : World) (cfg : Config) : Nat → Driver → Driver
  | 0, d => d
  | fuel + 1, d =>
    if downloadCond d then downloadLoop w cfg fuel (downloadIteration w cfg d) else d

/-- The guard of the download phase, `!nodownload && started > 0`. -/
def downloadGuard (cfg : Config) (d : Driver) : Bool := !cfg.nodownload && decide (d.started > 0)

/-- The download phase (main.cpp:234-258), the loop run for at most `fuel` iterations. -/
def downloadPhase (w : World) (cfg : Config) (fuel : Nat) (d : Driver) : Driver :=
  if downloadGuard cfg d then downloadLoop w cfg fuel d else d

/-- Whether control has reached main.cpp:260 in state `d` of the download phase: the loop
was skipped or its condition is false. -/
def downloadOver (cfg : Config) (d : Driver) : Bool := !(downloadGuard cfg d && downloadCond d)

/-- Body of the loop at main.cpp:263-267 for index `i`. -/
def seedMark (w : World) (d : Driver) (i : Nat) : Driver :=
  let has := answer w d (.torrent i .hasTrackers)
  let d := record d (.torrent i .hasTrackers)
  if has = 0 then orEseed d i else d

/-- Body of the `for` loop of the seeding loop (main.cpp:271-273) for index `i`. -/
def seedStep (w : World) (cfg : Config) (d : Driver) (i : Nat) : Driver :=
  let next := answer w d (.torrent i .nextConnection)
  let d := record d (.torrent i .nextConnection)
  if next = 0 then
    orEseed d i
  else
    let peers := answer w d (.torrent i .activePeers)
    let d := record d (.torrent i .activePeers)
    if peers < cfg.max_peers then
      let checked := answer w d (.torrent i .checkTrackers)
      let d := record d (.torrent i .checkTrackers)
      if checked = 0 then orEseed d i else d
    else d

/-- One iteration of the seeding loop (main.cpp:270-278). -/
def seedIteration (w : World) (cfg : Config) (d : Driver) : Driver :=
  print_all_stats (record ((List.range cfg.total).foldl (seedStep w cfg) d) .poll) cfg.total

/-- The condition of the seeding loop, `eseed ^ total_bits`. -/
def seedCond (d : Driver) : Bool := (d.eseed ^^^ d.total_bits) != 0

/-- The seeding loop (main.cpp:269-279), run for at most `fuel` iterations. -/
def seedLoop (w : World) (cfg : Config) : Nat → Driver → Driver
  | 0, d => d
  | fuel + 1, d => if seedCond d then seedLoop w cfg fuel (seedIteration w cfg d) else d

/-- The guard of the seeding phase, `!noseed && completed > 0`. -/
def seedGuard (cfg : Config) (d : Driver) : Bool := !cfg.noseed && decide (d.completed > 0)

/-- The seeding phase (main.cpp:261-280), the loop run for at most `fuel` iterations. -/
def seedPhase (w : World) (cfg : Config) (fuel : Nat) (d : Driver) : Driver :=
  if seedGuard cfg d then
    seedLoop w cfg fuel ((List.range cfg.total).foldl (seedMark w) d)
  else d

/-- Whether control has reached main.cpp:282 in state `d` of the seeding phase. -/
def seedOver (cfg : Config) (d : Driver) : Bool := !(seedGuard cfg d && seedCond d)

/-- The label chosen at main.cpp:289-294 for index `i`. -/
def label (d : Driver) (i : Nat) : Label :=
  if d.completed &&& bit i ≠ 0 then .Completed
  else if d.errors &&& bit i ≠ 0 then .WentWrong
  else if d.eseed &&& bit i ≠ 0 then .FailedToSeed
  else .NoLabel

/-- Body of the final report loop (main.cpp:287-295) for index `i`. -/
def reportStep (d : Driver) (i : Nat) : Driver :=
  let d := record d (.torrent i .meta)
  let d := { d with report := d.report ++ [label d i] }
  record d (.torrent i .name)

/-- The final report (main.cpp:286-296). -/
def finalReport (cfg : Config) (d : Driver) : Driver :=
  (List.range cfg.total).foldl reportStep d

/-- The function `main` from main.cpp:174 on, each loop given `fuel` iterations: the final
state, or `none` when a loop is still running after `fuel` iterations. -/
def main (w : World) (cfg : Config) (fuel : Nat) : Option Driver :=
  let d := downloadPhase w cfg fuel (setup w cfg)
  if downloadOver cfg d then
    let d := seedPhase w cfg fuel d
    if seedOver cfg d then some (finalReport cfg d) else none
  else none

/-- The calls made between state `d` and a later state `e`, in the order they were made. -/
def callsSince (d e : Driver) : List Call := (e.calls.take (e.calls.length - d.calls.length)).reverse

/-! ### Sample environments -/

/-- An environment in which every torrent opens, prepares as already completed, has trackers,
and refuses the first connection request. -/
def worldInfoOnly : World
  | Call.torrent _ .open_ :: _ => 1
  | Call.torrent _ (.prepare _ _) :: _ => 1
  | Call.torrent _ .hasTrackers :: _ => 1
  | _ => 0

/-- Options `--nodownload --torrents a.torrent`: `noseed` is false because `-e` was not given. -/
def cfgInfoOnly : Config :=
  { noseed := false, nodownload := true, startport := 6881, max_peers := 30, total := 1 }

/-- An environment for three torrents: torrent 0 fails to open, torrent 1 prepares as already
completed, torrent 2 is started and reports finished once `Connection::poll` has run twice;
every torrent reports 3 active peers, and every other call succeeds. -/
def worldMixed : World
  | Call.torrent 0 .open_ :: _ => 0
  | Call.torrent _ .open_ :: _ => 1
  | Call.torrent 1 (.prepare _ _) :: _ => 1
  | Call.torrent _ (.prepare _ _) :: _ => 0
  | Call.torrent _ .isFinished :: rest => if 2 ≤ rest.count Call.poll then 1 else 0
  | Call.torrent _ .activePeers :: _ => 3
  | _ => 1

/-- Options `-e --torrents a.torrent b.torrent c.torrent`. -/
def cfgMixed : Config :=
  { noseed := true, nodownload := false, startport := 6881, max_peers := 30, total := 3 }

/-- An environment in which every call succeeds: torrents open, prepare as already completed,
have trackers, accept connections, and report no active peer. -/
def worldSeeding : World
  | Call.torrent _ .activePeers :: _ => 0
  | _ => 1

/-- Options `--peers 0 --torrents a.torrent`: no peer limit, seeding enabled. -/
def cfgUnbounded : Config :=
  { noseed := false, nodownload := false, startport := 6881, max_peers := 0, total := 1 }

/-- Whether a call is a call on torrent `i`. -/
def onTorrent (i : Nat) : Call → Bool
  | Call.torrent j _ => j == i
  | Call.poll => false

/-! ### Properties of the masks -/

/-- The `completed` and `errors` masks are disjoint and both lie within `total_bits`. -/
def MasksOk (m : Masks) : Prop :=
  m.completed &&& m.errors = 0 ∧ m.completed &&& m.total_bits = m.completed ∧
    m.errors &&& m.total_bits = m.errors

/-- Bitwise form of the loop invariant: `t` holds exactly the bits below `k`, `c` and `e`
hold only bits below `i`, and no bit is in both `c` and `e`. -/
def MaskInv (k i t c e : Nat) : Prop :=
  (∀ j, t.testBit j = decide (j < k)) ∧ (∀ j, c.testBit j = true → j < i) ∧
    (∀ j, e.testBit j = true → j < i) ∧ (∀ j, c.testBit j = true → e.testBit j = false)

/-- Invariant of the set-up loop at index `i`. -/
def SetupInv (cfg : Config) (i : Nat) (d : Driver) : Prop :=
  MaskInv i i d.total_bits d.completed d.errors ∧ (∀ m ∈ d.trail, MasksOk m) ∧
    d.started ≤ i ∧ (cfg.nodownload = true → d.started = 0) ∧
    (d.started = 0 → ∀ j < i, d.completed.testBit j = true ∨ d.errors.testBit j = true)

/-- Invariant of the download loop. -/
def DownloadInv (cfg : Config) (d : Driver) : Prop :=
  MaskInv cfg.total cfg.total d.total_bits d.completed d.errors ∧ (∀ m ∈ d.trail, MasksOk m)

/-- State `e` differs from `d` at most in the recorded calls and in `eseed`. -/
def SameMasks (d e : Driver) : Prop :=
  e.total_bits = d.total_bits ∧ e.completed = d.completed ∧ e.errors = d.errors ∧
    e.started = d.started ∧ e.trail = d.trail ∧ e.report = d.report

/-- The member functions of the information display: `open` and the read-only accessors of
the torrent, its meta data and its file manager. -/
def readOnlyMethods : List Method :=
  [.open_, .meta, .fileManager, .name, .totalSize, .completedPieces, .totalPieces, .pieceLength]

/-- Every recorded call is `open` or a read-only accessor of some torrent. -/
def ReadOnly (d : Driver) : Prop :=
  ∀ c ∈ d.calls, ∃ i m, c = Call.torrent i m ∧ m ∈ readOnlyMethods

/-! # Theorems -/

/-! ### Proofs for `urlencode` -/

theorem hexDigits_last (fuel n : Nat) (acc : List Nat) (h : n / 16 = 0) :
    hexDigits (fuel + 1) n acc = hexDigit (n % 16) :: acc := by
  simp [hexDigits, h]

theorem hexDigits_more (fuel n : Nat) (acc : List Nat) (h : n / 16 ≠ 0) :
    hexDigits (fuel + 1) n acc = hexDigits fuel (n / 16) (hexDigit (n % 16) :: acc) := by
  simp [hexDigits, h]

theorem toHex_byte (b : Nat) (hb : b < 256) :
    setw 2 ('0'.toNat) (toHex b) = [hexDigit (b / 16), hexDigit (b % 16)] := by
  by_cases h : b / 16 = 0
  · have h16 : b < 16 := by omega
    have hm : b % 16 = b := Nat.mod_eq_of_lt h16
    have h0 : hexDigit 0 = '0'.toNat := by decide
    unfold toHex
    rw [hexDigits_last b b [] h]
    simp [h, setw, hm, h0]
  · have h2 : b / 16 / 16 = 0 := by omega
    obtain ⟨k, hk⟩ : ∃ k, b = k + 1 := ⟨b - 1, by omega⟩
    unfold toHex
    rw [hexDigits_more b b [] h]
    have hm : b / 16 % 16 = b / 16 := Nat.mod_eq_of_lt (by omega)
    rw [hk, hexDigits_last k _ _ (by rw [← hk]; exact h2), ← hk, hm]
    simp [setw]

theorem urlencodeStep_eq (escaped : List Nat) (b : Nat) (hb : b < 256) :
    urlencodeStep escaped b = escaped ++ percentToken b := by
  have hu : unsignedChar (charValue b) = b := by
    unfold unsignedChar charValue
    split <;> omega
  have hc : (isalnum (charValue b) || charValue b == ('-'.toNat : Int)
      || charValue b == ('_'.toNat : Int) || charValue b == ('.'.toNat : Int)
      || charValue b == ('~'.toNat : Int)) = unreserved b := by
    unfold isalnum unreserved charValue
    by_cases h : b < 128
    · simp only [h, if_true]
      rw [Bool.eq_iff_iff]
      simp only [Bool.or_eq_true, Bool.and_eq_true, decide_eq_true_eq, beq_iff_eq]
      simp only [Char.reduceToNat]
      omega
    · simp only [h, if_false]
      rw [Bool.eq_iff_iff]
      simp only [Bool.or_eq_true, Bool.and_eq_true, decide_eq_true_eq, beq_iff_eq]
      simp only [Char.reduceToNat]
      omega
  unfold urlencodeStep percentToken
  simp only [hc, hu]
  split
  · rfl
  · rw [toHex_byte b hb]
    simp

theorem foldl_urlencodeStep (s : List Nat) (h : ∀ b ∈ s, b < 256) (acc : List Nat) :
    s.foldl urlencodeStep acc = acc ++ (s.map percentToken).flatten := by
  induction s generalizing acc with
  | nil => simp
  | cons b t ih =>
    have hb : b < 256 := h b (List.mem_cons_self b t)
    have ht : ∀ x ∈ t, x < 256 := fun x hx => h x (List.mem_cons_of_mem b hx)
    simp only [List.foldl_cons, List.map_cons, List.flatten_cons]
    rw [ih ht, urlencodeStep_eq _ _ hb, List.append_assoc]

/-- C1: for every byte string `s`, `urlencode s` is the concatenation, in order, of one token
per byte: an unreserved byte (ASCII letter, digit, `-`, `_`, `.`, `~`) is emitted unchanged,
every other byte value (bytes from 0x80 up and NUL included) as the three characters `%`,
high hex digit, low hex digit, in uppercase and zero padded. -/
theorem urlencode_rfc3986 (s : List Nat) (h : ∀ b ∈ s, b < 256) :
    urlencode s = (s.map percentToken).flatten ∧
      (∀ b ∈ s, unreserved b = true → percentToken b = [b]) ∧
      (∀ b ∈ s, unreserved b = false →
        percentToken b = ['%'.toNat, hexDigit (b / 16), hexDigit (b % 16)] ∧
        (percentToken b).length = 3 ∧
        hexDigit (b / 16) ∈ bytes "0123456789ABCDEF" ∧
        hexDigit (b % 16) ∈ bytes "0123456789ABCDEF") := by
  refine ⟨?_, ?_, ?_⟩
  · unfold urlencode
    rw [foldl_urlencodeStep s h []]
    simp
  · intro b _ hu
    simp [percentToken, hu]
  · intro b hb hu
    have hb256 : b < 256 := h b hb
    have hd : ∀ d, d < 16 → hexDigit d ∈ bytes "0123456789ABCDEF" := by
      intro d hd
      interval_cases d <;> decide
    refine ⟨by simp [percentToken, hu], by simp [percentToken, hu], hd _ (by omega), hd _ (by omega)⟩

/-- C1 at the bytes of `a b` followed by NUL, 0xFF, `~` and newline: the result is
`a%20b%00%FF~%0A`. -/
theorem urlencode_rfc3986_witness :
    (∀ b ∈ [97, 32, 98, 0, 255, 126, 10], b < 256) ∧
    urlencode [97, 32, 98, 0, 255, 126, 10] = bytes "a%20b%00%FF~%0A" ∧
    (urlencode [97, 32, 98, 0, 255, 126, 10] =
        (([97, 32, 98, 0, 255, 126, 10] : List Nat).map percentToken).flatten ∧
      (∀ b ∈ [97, 32, 98, 0, 255, 126, 10], unreserved b = true → percentToken b = [b]) ∧
      (∀ b ∈ [97, 32, 98, 0, 255, 126, 10], unreserved b = false →
        percentToken b = ['%'.toNat, hexDigit (b / 16), hexDigit (b % 16)] ∧
        (percentToken b).length = 3 ∧
        hexDigit (b / 16) ∈ bytes "0123456789ABCDEF" ∧
        hexDigit (b % 16) ∈ bytes "0123456789ABCDEF")) :=
  ⟨by decide, by decide, urlencode_rfc3986 [97, 32, 98, 0, 255, 126, 10] (by decide)⟩

/-! ### Proofs for the request-size rounding -/

theorem clzScan_spec (w x : Nat) (hx : 0 < x) (hlt : x < 2 ^ w) :
    clzScan w x < w ∧ 2 ^ (w - 1 - clzScan w x) ≤ x ∧ x < 2 ^ (w - clzScan w x) := by
  induction w with
  | zero => simp at hlt; omega
  | succ w ih =>
    unfold clzScan
    by_cases hb : x.testBit w = true
    · simp only [hb, if_true]
      refine ⟨by omega, ?_, by simpa using hlt⟩
      simpa using Nat.testBit_implies_ge hb
    · simp only [hb]
      have hb2 : x.testBit w = false := by simpa using hb
      have hlt2 : x < 2 ^ w := by
        apply Nat.lt_pow_two_of_testBit
        intro i hi
        rcases Nat.eq_or_lt_of_le hi with h | h
        · rw [← h]; exact hb2
        · apply Nat.testBit_lt_two_pow
          calc x < 2 ^ (w + 1) := hlt
            _ ≤ 2 ^ i := Nat.pow_le_pow_right (by norm_num) h
      obtain ⟨h1, h2, h3⟩ := ih hlt2
      refine ⟨by simp; omega, ?_, ?_⟩
      · have e : w + 1 - 1 - (clzScan w x + 1) = w - 1 - clzScan w x := by omega
        simp only [Bool.false_eq_true, if_false]
        rw [e]; exact h2
      · have e : w + 1 - (clzScan w x + 1) = w - clzScan w x := by omega
        simp only [Bool.false_eq_true, if_false]
        rw [e]; exact h3

/-- In the range `2 ≤ n ≤ 2^30` the rounding yields `2^k` with `2^(k-1) < n ≤ 2^k`. -/
theorem roundRequestSize_eq (n : Nat) (h2 : 2 ≤ n) (hn : n ≤ 2 ^ 30) :
    ∃ k : Nat, 1 ≤ k ∧ k ≤ 30 ∧ roundRequestSize n = ((2 ^ k : Nat) : Int) ∧
      2 ^ (k - 1) < n ∧ n ≤ 2 ^ k := by
  have hx : toUInt32 ((n : Int) - 1) = n - 1 := by
    unfold toUInt32
    omega
  obtain ⟨h1, hlo, hhi⟩ := clzScan_spec 32 (n - 1) (by omega) (by omega)
  have hc2 : 2 ≤ clzScan 32 (n - 1) := by
    by_contra hcon
    have : 2 ^ 30 ≤ 2 ^ (32 - 1 - clzScan 32 (n - 1)) :=
      Nat.pow_le_pow_right (by norm_num) (by omega)
    omega
  refine ⟨32 - clzScan 32 (n - 1), by omega, by omega, ?_, ?_, by omega⟩
  · unfold roundRequestSize builtin_clz
    rw [hx]
    have hk : 32 - clzScan 32 (n - 1) ≤ 30 := by omega
    have hp : 2 ^ (32 - clzScan 32 (n - 1)) ≤ 2 ^ 30 := Nat.pow_le_pow_right (by norm_num) hk
    unfold shl32 toInt32
    rw [Nat.mod_eq_of_lt (by omega : 32 - clzScan 32 (n - 1) < 32)]
    simp only [one_mul, Nat.mod_mod]
    rw [Nat.mod_eq_of_lt (by omega)]
    rw [if_pos (by omega)]
  · have e : 32 - clzScan 32 (n - 1) - 1 = 32 - 1 - clzScan 32 (n - 1) := by omega
    rw [e]; omega

/-- Every value the rounding expression can take is a 32-bit `int`: it is below `2^31`. -/
theorem roundRequestSize_lt (n : Nat) : roundRequestSize n < 2 ^ 31 := by
  unfold roundRequestSize toInt32
  split <;> omega

/-- C2: for every `n` with `2 ≤ n ≤ 2^30` the rounding `1 << (32 - clz(n - 1))` gives a power
of two `r` with `n ≤ r < 2 * n`, the least power of two not below `n`; powers of two are left
unchanged and rounding a rounded value changes nothing. -/
theorem roundRequestSize_next_power_of_two (n : Nat) (h2 : 2 ≤ n) (hn : n ≤ 2 ^ 30) :
    (∃ k : Nat, roundRequestSize n = ((2 ^ k : Nat) : Int)) ∧
    (n : Int) ≤ roundRequestSize n ∧ roundRequestSize n < 2 * (n : Int) ∧
    (∀ j : Nat, n ≤ 2 ^ j → roundRequestSize n ≤ ((2 ^ j : Nat) : Int)) ∧
    ((∃ j : Nat, n = 2 ^ j) → roundRequestSize n = (n : Int)) ∧
    roundRequestSize (roundRequestSize n).toNat = roundRequestSize n := by
  obtain ⟨k, hk1, hk30, hr, hlo, hhi⟩ := roundRequestSize_eq n h2 hn
  have hpow : 2 ^ k = 2 * 2 ^ (k - 1) := by
    obtain ⟨m, rfl⟩ : ∃ m, k = m + 1 := ⟨k - 1, by omega⟩
    simp [pow_succ, mul_comm]
  have fixed : ∀ m : Nat, 2 ≤ m → m ≤ 2 ^ 30 → (∃ j : Nat, m = 2 ^ j) →
      roundRequestSize m = (m : Int) := by
    intro m hm2 hm30 hj
    obtain ⟨j, rfl⟩ := hj
    obtain ⟨i, hi1, _, hri, hloi, hhii⟩ := roundRequestSize_eq (2 ^ j) hm2 hm30
    have h1 : i - 1 < j := (Nat.pow_lt_pow_iff_right (by norm_num)).1 hloi
    have h2 : j ≤ i := (Nat.pow_le_pow_iff_right (by norm_num)).1 hhii
    have : i = j := by omega
    rw [hri, this]
  refine ⟨⟨k, hr⟩, ?_, ?_, ?_, ?_, ?_⟩
  · rw [hr]; exact_mod_cast hhi
  · rw [hr]
    have : 2 ^ k < 2 * n := by omega
    exact_mod_cast this
  · intro j hj
    rw [hr]
    have h1 : 2 ^ (k - 1) < 2 ^ j := lt_of_lt_of_le hlo hj
    have h2 : k - 1 < j := (Nat.pow_lt_pow_iff_right (by norm_num)).1 h1
    have h3 : 2 ^ k ≤ 2 ^ j := Nat.pow_le_pow_right (by norm_num) (by omega)
    exact_mod_cast h3
  · exact fixed n h2 hn
  · rw [hr, Int.toNat_ofNat]
    have hk2 : 2 ≤ 2 ^ k := by omega
    have hk3 : 2 ^ k ≤ 2 ^ 30 := Nat.pow_le_pow_right (by norm_num) hk30
    exact fixed (2 ^ k) hk2 hk3 ⟨k, rfl⟩

/-- C2 at `n = 16385`: the rounding gives 32768. -/
theorem roundRequestSize_next_power_of_two_witness :
    2 ≤ 16385 ∧ 16385 ≤ 2 ^ 30 ∧ roundRequestSize 16385 = 32768 ∧
    ((∃ k : Nat, roundRequestSize 16385 = ((2 ^ k : Nat) : Int)) ∧
    ((16385 : Nat) : Int) ≤ roundRequestSize 16385 ∧
    roundRequestSize 16385 < 2 * ((16385 : Nat) : Int) ∧
    (∀ j : Nat, 16385 ≤ 2 ^ j → roundRequestSize 16385 ≤ ((2 ^ j : Nat) : Int)) ∧
    ((∃ j : Nat, 16385 = 2 ^ j) → roundRequestSize 16385 = ((16385 : Nat) : Int)) ∧
    roundRequestSize (roundRequestSize 16385).toNat = roundRequestSize 16385) :=
  ⟨by norm_num, by norm_num, by decide,
    roundRequestSize_next_power_of_two 16385 (by norm_num) (by norm_num)⟩

/-- C3, as stated, fails: at `n = 2^31 + 1` the shift count is 32 and the `int` result is 1,
which is below `n` (and no `int` is as large as `n`); at `n = 2^30 + 1` the shift count is 31
and the `int` result is `-2^31`, which is neither a power of two nor at least `n`. -/
theorem roundRequestSize_not_always_rounded_up :
    roundRequestSize 2147483649 = 1 ∧
    ¬ ((∃ k : Nat, roundRequestSize 2147483649 = ((2 ^ k : Nat) : Int)) ∧
        (2147483649 : Int) ≤ roundRequestSize 2147483649) ∧
    roundRequestSize 1073741825 = -2147483648 ∧
    ¬ ((∃ k : Nat, roundRequestSize 1073741825 = ((2 ^ k : Nat) : Int)) ∧
        (1073741825 : Int) ≤ roundRequestSize 1073741825) := by
  have h1 : roundRequestSize 2147483649 = 1 := by decide
  have h2 : roundRequestSize 1073741825 = -2147483648 := by decide
  refine ⟨h1, ?_, h2, ?_⟩
  · rw [h1]; rintro ⟨_, h⟩; omega
  · rw [h2]; rintro ⟨_, h⟩; omega

/-- C3, amended: for every piecesize value `n` with `2 ≤ n ≤ 2^30` the value the rounding
step stores in `maxRequestSize` is a power of two and is at least `n`. -/
theorem roundRequestSize_power_of_two_ge (n : Nat) (h2 : 2 ≤ n) (hn : n ≤ 2 ^ 30) :
    (∃ k : Nat, roundRequestSize n = ((2 ^ k : Nat) : Int)) ∧ (n : Int) ≤ roundRequestSize n := by
  obtain ⟨k, _, _, hr, _, hhi⟩ := roundRequestSize_eq n h2 hn
  exact ⟨⟨k, hr⟩, by rw [hr]; exact_mod_cast hhi⟩

/-- C3, amended, at `n = 2^30`, the top of the range, which stays `2^30`. -/
theorem roundRequestSize_power_of_two_ge_witness :
    2 ≤ 2 ^ 30 ∧ 2 ^ 30 ≤ 2 ^ 30 ∧
    ((∃ k : Nat, roundRequestSize (2 ^ 30) = ((2 ^ k : Nat) : Int)) ∧
      ((2 ^ 30 : Nat) : Int) ≤ roundRequestSize (2 ^ 30)) :=
  ⟨by norm_num, by norm_num, roundRequestSize_power_of_two_ge (2 ^ 30) (by norm_num) (by norm_num)⟩

/-! ### Proofs for `parseUrl` -/

theorem lowerByte_eq (b : Nat) (hb : b < 256) :
    lowerByte b = if 'A'.toNat ≤ b ∧ b ≤ 'Z'.toNat then b + 32 else b := by
  unfold lowerByte unsignedChar tolower charValue
  simp only [Char.reduceToNat]
  split <;> split <;> split <;> omega

theorem map_lowerByte (s : List Nat) (h : ∀ b ∈ s, b < 256) : s.map lowerByte = lowercase s := by
  unfold lowercase
  apply List.map_congr_left
  intro b hb
  exact lowerByte_eq b (h b hb)

theorem find_append_of_not_mem (c : Nat) (l r : List Nat) (h : c ∉ l) :
    find c (l ++ c :: r) = c :: r := by
  induction l with
  | nil => simp [find]
  | cons x t ih =>
    have hx : x ≠ c := fun e => h (by simp [e])
    have ht : c ∉ t := fun e => h (List.mem_cons_of_mem x e)
    simp [find, hx, ih ht]

theorem find_of_not_mem (c : Nat) (l : List Nat) (h : c ∉ l) : find c l = [] := by
  induction l with
  | nil => simp [find]
  | cons x t ih =>
    have hx : x ≠ c := fun e => h (by simp [e])
    have ht : c ∉ t := fun e => h (List.mem_cons_of_mem x e)
    simp [find, hx, ih ht]

theorem find_head (c : Nat) (r : List Nat) : find c (c :: r) = c :: r := by
  simp [find]

theorem between_append (l r : List Nat) : between (l ++ r) r = l := by
  simp [between]

theorem between_nil (l : List Nat) : between l [] = l := by
  simp [between]

theorem search_scheme (P R : List Nat) (hP : ¬ bytes "://" <:+: P) :
    search (bytes "://") (P ++ bytes "://" ++ R) = bytes "://" ++ R := by
  have hsep : bytes "://" = [58, 47, 47] := by decide
  rw [hsep] at hP ⊢
  induction P with
  | nil => simp [search, List.isPrefixOf]
  | cons x t ih =>
    have ht : ¬ [58, 47, 47] <:+: t := fun h => hP (List.infix_cons h)
    have hno : List.isPrefixOf [58, 47, 47] (x :: t ++ [58, 47, 47] ++ R) = false := by
      match t, hP with
      | [], _ => simp [List.isPrefixOf]
      | [y], _ => simp [List.isPrefixOf]
      | y :: z :: u, hP =>
        by_contra hcon
        simp only [Bool.not_eq_false] at hcon
        apply hP
        have hpre : [58, 47, 47] <+: x :: y :: z :: u := by
          simp only [List.cons_append, List.isPrefixOf, Bool.and_eq_true, beq_iff_eq,
            Bool.and_true] at hcon
          obtain ⟨h1, h2, h3⟩ := hcon
          subst h1 h2 h3
          exact ⟨u, rfl⟩
        exact hpre.isInfix
    have hstep : search [58, 47, 47] (x :: t ++ [58, 47, 47] ++ R) =
        search [58, 47, 47] (t ++ [58, 47, 47] ++ R) := by
      show search [58, 47, 47] (x :: (t ++ [58, 47, 47] ++ R)) = _
      rw [search]
      have hno2 : List.isPrefixOf [58, 47, 47] (x :: (t ++ [58, 47, 47] ++ R)) = false := hno
      rw [if_neg (by rw [hno2]; exact Bool.false_ne_true)]
    rw [hstep, ih ht]

/-- What `parseUrl` computes once the scheme `P` has been split off: the rest `R` of the
string decides host and port. -/
theorem parseUrl_scheme (P R : List Nat) (hP : ¬ bytes "://" <:+: P) :
    parseUrl (P ++ bytes "://" ++ R) =
      (let hostIter := if find (':'.toNat) R = [] then find ('/'.toNat) R else find (':'.toNat) R
       let portIter := find (':'.toNat) hostIter
       if portIter = [] then (P.map lowerByte, (between R hostIter).map lowerByte, P.map lowerByte)
       else (P.map lowerByte, (between R hostIter).map lowerByte,
          if find ('/'.toNat) portIter ≠ [] then between (portIter.drop 1) (find ('/'.toNat) portIter)
          else between (portIter.drop 1) [])) := by
  have hs := search_scheme P R hP
  have hsep : bytes "://" = [58, 47, 47] := by decide
  have hne : bytes "://" ++ R ≠ [] := by rw [hsep]; simp
  have hb : between (P ++ bytes "://" ++ R) (bytes "://" ++ R) = P := by
    rw [List.append_assoc]; exact between_append P _
  have hd : (bytes "://" ++ R).drop (bytes "://").length = R := by simp
  simp only [parseUrl, hs, hne, if_false, hb, hd]

/-- C6: for every scheme `P` without `://`, every non-empty host `H` without `:` and `/`,
every port text `N` without `:` and `/`, and every rest `Q` that is empty or starts with `/`,
`parseUrl (P ++ "://" ++ H ++ ":" ++ N ++ Q)` is `(lowercase P, lowercase H, N)`, whatever
`Q` contains. -/
theorem parseUrl_explicit_port (P H N Q : List Nat)
    (hbP : ∀ b ∈ P, b < 256) (hbH : ∀ b ∈ H, b < 256)
    (hP : ¬ bytes "://" <:+: P) (_hH : H ≠ [])
    (hH1 : ':'.toNat ∉ H) (_hH2 : '/'.toNat ∉ H)
    (_hN1 : ':'.toNat ∉ N) (hN2 : '/'.toNat ∉ N)
    (hQ : Q = [] ∨ ∃ Q', Q = '/'.toNat :: Q') :
    parseUrl (P ++ bytes "://" ++ H ++ bytes ":" ++ N ++ Q) = (lowercase P, lowercase H, N) := by
  have hcolon : bytes ":" = [':'.toNat] := by decide
  have hstr : P ++ bytes "://" ++ H ++ bytes ":" ++ N ++ Q =
      P ++ bytes "://" ++ (H ++ ':'.toNat :: (N ++ Q)) := by
    rw [hcolon]; simp
  rw [hstr, parseUrl_scheme P _ hP]
  have hf : find (':'.toNat) (H ++ ':'.toNat :: (N ++ Q)) = ':'.toNat :: (N ++ Q) :=
    find_append_of_not_mem _ H _ hH1
  have hq : find ('/'.toNat) (':'.toNat :: (N ++ Q)) = find ('/'.toNat) (N ++ Q) := by
    rw [find]; simp
  simp only [hf, find_head, if_false, between_append, List.cons_ne_nil,
    List.drop_succ_cons, List.drop_zero, hq]
  rw [map_lowerByte P hbP, map_lowerByte H hbH]
  rcases hQ with rfl | ⟨Q', rfl⟩
  · rw [List.append_nil, find_of_not_mem _ N hN2]
    simp [between_nil]
  · rw [find_append_of_not_mem _ N Q' hN2]
    simp [between_append]

/-- C6 at `UDP://Tracker.Example.com:6969/announce?a=b:c/d`, which parses to
`(udp, tracker.example.com, 6969)`. -/
theorem parseUrl_explicit_port_witness :
    parseUrl (bytes "UDP://Tracker.Example.com:6969/announce?a=b:c/d") =
      (bytes "udp", bytes "tracker.example.com", bytes "6969") ∧
    parseUrl (bytes "UDP" ++ bytes "://" ++ bytes "Tracker.Example.com" ++ bytes ":" ++
        bytes "6969" ++ bytes "/announce?a=b:c/d") =
      (lowercase (bytes "UDP"), lowercase (bytes "Tracker.Example.com"), bytes "6969") :=
  ⟨by decide,
    parseUrl_explicit_port (bytes "UDP") (bytes "Tracker.Example.com") (bytes "6969")
      (bytes "/announce?a=b:c/d") (by decide) (by decide) (by decide) (by decide) (by decide)
      (by decide) (by decide) (by decide) (Or.inr ⟨bytes "announce?a=b:c/d", by decide⟩)⟩

/-- Without a port and without a `:` after the host, the port is the protocol: for `Q`
starting with `/` and free of `:`, `parseUrl (P ++ "://" ++ H ++ Q)` is
`(lowercase P, lowercase H, lowercase P)`. -/
theorem parseUrl_default_port (P H Q : List Nat)
    (hbP : ∀ b ∈ P, b < 256) (hbH : ∀ b ∈ H, b < 256)
    (hP : ¬ bytes "://" <:+: P)
    (hH1 : ':'.toNat ∉ H) (hH2 : '/'.toNat ∉ H)
    (hQ : ∃ Q', Q = '/'.toNat :: Q') (hQ1 : ':'.toNat ∉ Q) :
    parseUrl (P ++ bytes "://" ++ H ++ Q) = (lowercase P, lowercase H, lowercase P) := by
  obtain ⟨Q', rfl⟩ := hQ
  have hstr : P ++ bytes "://" ++ H ++ '/'.toNat :: Q' =
      P ++ bytes "://" ++ (H ++ '/'.toNat :: Q') := by simp
  rw [hstr, parseUrl_scheme P _ hP]
  have hc : ':'.toNat ∉ H ++ '/'.toNat :: Q' := by
    intro h
    rcases List.mem_append.1 h with h | h
    · exact hH1 h
    · exact hQ1 h
  have hf : find (':'.toNat) (H ++ '/'.toNat :: Q') = [] := find_of_not_mem _ _ hc
  have hs : find ('/'.toNat) (H ++ '/'.toNat :: Q') = '/'.toNat :: Q' :=
    find_append_of_not_mem _ H _ hH2
  have hf2 : find (':'.toNat) ('/'.toNat :: Q') = [] := find_of_not_mem _ _ hQ1
  simp only [hf, hs, hf2, if_true, between_append]
  rw [map_lowerByte P hbP, map_lowerByte H hbH]

/-- The default-port rule at `Http://Tracker.com/announce?x=1`. -/
theorem parseUrl_default_port_witness :
    parseUrl (bytes "Http" ++ bytes "://" ++ bytes "Tracker.com" ++ bytes "/announce?x=1") =
      (lowercase (bytes "Http"), lowercase (bytes "Tracker.com"), lowercase (bytes "Http")) :=
  parseUrl_default_port (bytes "Http") (bytes "Tracker.com") (bytes "/announce?x=1")
    (by decide) (by decide) (by decide) (by decide) (by decide)
    ⟨bytes "announce?x=1", by decide⟩ (by decide)

/-- C7 at `http://tracker.com/announce?x=a:b` (scheme `http`, host `tracker.com`, no port,
query `/announce?x=a:b`): `parseUrl` returns host `tracker.com/announce?x=a` and port `b`,
not host `tracker.com` and port `http`. -/
theorem parseUrl_colon_in_query :
    parseUrl (bytes "http" ++ bytes "://" ++ bytes "tracker.com" ++ bytes "/announce?x=a:b") =
      (bytes "http", bytes "tracker.com/announce?x=a", bytes "b") ∧
    parseUrl (bytes "http" ++ bytes "://" ++ bytes "tracker.com" ++ bytes "/announce?x=a:b") ≠
      (lowercase (bytes "http"), lowercase (bytes "tracker.com"), lowercase (bytes "http")) := by
  decide

/-! ### Proofs for `ip2str` and `str2ip` -/

theorem decDigits_last (fuel n : Nat) (acc : List Nat) (h : n / 10 = 0) :
    decDigits (fuel + 1) n acc = ('0'.toNat + n % 10) :: acc := by
  simp [decDigits, h]

theorem decDigits_more (fuel n : Nat) (acc : List Nat) (h : n / 10 ≠ 0) :
    decDigits (fuel + 1) n acc = decDigits fuel (n / 10) (('0'.toNat + n % 10) :: acc) := by
  simp [decDigits, h]

/-- A number up to 999 prints as one to three characters. -/
theorem dec_length (n : Nat) (hn : n < 1000) : 1 ≤ (dec n).length ∧ (dec n).length ≤ 3 := by
  unfold dec
  by_cases h1 : n / 10 = 0
  · rw [decDigits_last n n [] h1]; simp
  · rw [decDigits_more n n [] h1]
    obtain ⟨k, hk⟩ : ∃ k, n = k + 1 := ⟨n - 1, by omega⟩
    by_cases h2 : n / 10 / 10 = 0
    · rw [hk, decDigits_last k _ _ (by rw [← hk]; exact h2)]; simp
    · obtain ⟨j, hj⟩ : ∃ j, k = j + 1 := ⟨k - 1, by omega⟩
      have h3 : n / 10 / 10 / 10 = 0 := by omega
      rw [hk, decDigits_more k _ _ (by rw [← hk]; exact h2), hj,
        decDigits_last j _ _ (by rw [← hj, ← hk]; exact h3)]
      simp

theorem formatDotted_length (a b c d : Nat) (ha : a < 1000) (hb : b < 1000) (hc : c < 1000)
    (hd : d < 1000) :
    7 ≤ (formatDotted a b c d).length ∧ (formatDotted a b c d).length ≤ 15 := by
  have h1 := dec_length a ha
  have h2 := dec_length b hb
  have h3 := dec_length c hc
  have h4 := dec_length d hd
  have hdot : (bytes ".").length = 1 := by decide
  unfold formatDotted
  simp only [List.length_append, hdot]
  omega

theorem ip_parts (ip : Nat) (hip : ip < 2 ^ 32) :
    ip &&& 0xFF ≤ 255 ∧ (ip >>> 8) &&& 0xFF ≤ 255 ∧ (ip >>> 16) &&& 0xFF ≤ 255 ∧ ip >>> 24 ≤ 255 := by
  have e : (0xFF : Nat) = 2 ^ 8 - 1 := by norm_num
  rw [e, Nat.and_pow_two_sub_one_eq_mod, Nat.and_pow_two_sub_one_eq_mod,
    Nat.and_pow_two_sub_one_eq_mod, Nat.shiftRight_eq_div_pow, Nat.shiftRight_eq_div_pow,
    Nat.shiftRight_eq_div_pow]
  omega

theorem ip2str_eq (ip : Nat) (hip : ip < 2 ^ 32) :
    ip2str ip =
      some (formatDotted (ip &&& 0xFF) ((ip >>> 8) &&& 0xFF) ((ip >>> 16) &&& 0xFF) (ip >>> 24)) := by
  obtain ⟨h1, h2, h3, h4⟩ := ip_parts ip hip
  have hl := formatDotted_length (ip &&& 0xFF) ((ip >>> 8) &&& 0xFF) ((ip >>> 16) &&& 0xFF)
    (ip >>> 24) (by omega) (by omega) (by omega) (by omega)
  unfold ip2str
  simp only
  rw [if_pos (by omega)]

theorem pack_bytes (b0 b1 b2 b3 : Nat) (_h0 : b0 < 256) (h1 : b1 < 256) (h2 : b2 < 256)
    (h3 : b3 < 256) :
    2 ^ 24 * b0 ||| 2 ^ 16 * b1 ||| 2 ^ 8 * b2 ||| b3 =
      2 ^ 24 * b0 + 2 ^ 16 * b1 + 2 ^ 8 * b2 + b3 := by
  rw [Nat.lor_assoc, Nat.lor_assoc]
  rw [← Nat.mul_add_lt_is_or (by omega : b3 < 2 ^ 8) b2]
  rw [← Nat.mul_add_lt_is_or (by omega : 2 ^ 8 * b2 + b3 < 2 ^ 16) b1]
  rw [← Nat.mul_add_lt_is_or (by omega : 2 ^ 16 * b1 + (2 ^ 8 * b2 + b3) < 2 ^ 24) b0]
  omega

theorem str2ip_eq (b0 b1 b2 b3 : Nat) (h0 : b0 < 256) (h1 : b1 < 256) (h2 : b2 < 256)
    (h3 : b3 < 256) :
    str2ip [b0, b1, b2, b3] = some (2 ^ 24 * b0 + 2 ^ 16 * b1 + 2 ^ 8 * b2 + b3) := by
  have e0 : shl32 b0 24 = 2 ^ 24 * b0 := by
    unfold shl32; norm_num; omega
  have e1 : shl32 b1 16 = 2 ^ 16 * b1 := by
    unfold shl32; norm_num; omega
  have e2 : shl32 b2 8 = 2 ^ 8 * b2 := by
    unfold shl32; norm_num; omega
  have hm : (2 ^ 24 * b0 + 2 ^ 16 * b1 + 2 ^ 8 * b2 + b3) % 2 ^ 32 =
      2 ^ 24 * b0 + 2 ^ 16 * b1 + 2 ^ 8 * b2 + b3 := Nat.mod_eq_of_lt (by omega)
  have hc0 : c_str [b0, b1, b2, b3] 0 = some b0 := by simp [c_str]
  have hc1 : c_str [b0, b1, b2, b3] 1 = some b1 := by simp [c_str]
  have hc2 : c_str [b0, b1, b2, b3] 2 = some b2 := by simp [c_str]
  have hc3 : c_str [b0, b1, b2, b3] 3 = some b3 := by simp [c_str]
  unfold str2ip
  rw [hc0, hc1, hc2, hc3]
  simp only
  rw [e0, e1, e2, pack_bytes b0 b1 b2 b3 h0 h1 h2 h3, hm]

theorem unpack_bytes (b0 b1 b2 b3 : Nat) (_h0 : b0 < 256) (h1 : b1 < 256) (h2 : b2 < 256)
    (h3 : b3 < 256) :
    (2 ^ 24 * b0 + 2 ^ 16 * b1 + 2 ^ 8 * b2 + b3) &&& 0xFF = b3 ∧
    ((2 ^ 24 * b0 + 2 ^ 16 * b1 + 2 ^ 8 * b2 + b3) >>> 8) &&& 0xFF = b2 ∧
    ((2 ^ 24 * b0 + 2 ^ 16 * b1 + 2 ^ 8 * b2 + b3) >>> 16) &&& 0xFF = b1 ∧
    (2 ^ 24 * b0 + 2 ^ 16 * b1 + 2 ^ 8 * b2 + b3) >>> 24 = b0 := by
  have e : (0xFF : Nat) = 2 ^ 8 - 1 := by norm_num
  rw [e, Nat.and_pow_two_sub_one_eq_mod, Nat.and_pow_two_sub_one_eq_mod,
    Nat.and_pow_two_sub_one_eq_mod, Nat.shiftRight_eq_div_pow, Nat.shiftRight_eq_div_pow,
    Nat.shiftRight_eq_div_pow]
  omega

/-- C10: for every 32-bit `ip`, `ip2str ip` is the dotted decimal text of the four bytes of
`ip`, least significant first; each number is at most 255 and the text has 7 to 15 characters,
so with its terminator it fits the 17-byte buffer. `str2ip` packs the bytes `b0 b1 b2 b3` of
its argument big-endian, and `ip2str (str2ip (b0 b1 b2 b3))` is the text `b3.b2.b1.b0`. -/
theorem ip2str_dotted_reversed (ip b0 b1 b2 b3 : Nat) (hip : ip < 2 ^ 32)
    (h0 : b0 < 256) (h1 : b1 < 256) (h2 : b2 < 256) (h3 : b3 < 256) :
    ip2str ip = some (dec (ip &&& 0xFF) ++ bytes "." ++ dec ((ip >>> 8) &&& 0xFF) ++ bytes "." ++
      dec ((ip >>> 16) &&& 0xFF) ++ bytes "." ++ dec (ip >>> 24)) ∧
    (ip &&& 0xFF ≤ 255 ∧ (ip >>> 8) &&& 0xFF ≤ 255 ∧ (ip >>> 16) &&& 0xFF ≤ 255 ∧
      ip >>> 24 ≤ 255) ∧
    (∀ t, ip2str ip = some t → 7 ≤ t.length ∧ t.length ≤ 15 ∧ t.length + 1 ≤ 17) ∧
    str2ip [b0, b1, b2, b3] = some ((b0 <<< 24 ||| b1 <<< 16 ||| b2 <<< 8 ||| b3) % 2 ^ 32) ∧
    (str2ip [b0, b1, b2, b3]).bind ip2str =
      some (dec b3 ++ bytes "." ++ dec b2 ++ bytes "." ++ dec b1 ++ bytes "." ++ dec b0) := by
  have hparts := ip_parts ip hip
  have hstr := ip2str_eq ip hip
  have hpack := str2ip_eq b0 b1 b2 b3 h0 h1 h2 h3
  refine ⟨hstr, hparts, ?_, ?_, ?_⟩
  · intro t ht
    rw [hstr] at ht
    obtain ⟨p1, p2, p3, p4⟩ := hparts
    have hl := formatDotted_length (ip &&& 0xFF) ((ip >>> 8) &&& 0xFF) ((ip >>> 16) &&& 0xFF)
      (ip >>> 24) (by omega) (by omega) (by omega) (by omega)
    have : formatDotted (ip &&& 0xFF) ((ip >>> 8) &&& 0xFF) ((ip >>> 16) &&& 0xFF) (ip >>> 24) = t := by
      simpa using ht
    rw [← this]
    omega
  · rw [hpack]
    have e : b0 <<< 24 ||| b1 <<< 16 ||| b2 <<< 8 ||| b3 =
        2 ^ 24 * b0 + 2 ^ 16 * b1 + 2 ^ 8 * b2 + b3 := by
      rw [Nat.shiftLeft_eq, Nat.shiftLeft_eq, Nat.shiftLeft_eq, Nat.mul_comm b0, Nat.mul_comm b1,
        Nat.mul_comm b2]
      exact pack_bytes b0 b1 b2 b3 h0 h1 h2 h3
    rw [e, Nat.mod_eq_of_lt (by omega)]
  · rw [hpack]
    obtain ⟨u3, u2, u1, u0⟩ := unpack_bytes b0 b1 b2 b3 h0 h1 h2 h3
    show ip2str (2 ^ 24 * b0 + 2 ^ 16 * b1 + 2 ^ 8 * b2 + b3) = _
    rw [ip2str_eq _ (by omega), u3, u2, u1, u0]
    rfl

/-- C10 at `ip = 0x0100007F` (text `127.0.0.1`) and at the bytes 192 168 1 2 (packed
`0xC0A80102`, printed back as `2.1.168.192`). -/
theorem ip2str_dotted_reversed_witness :
    (0x0100007F < 2 ^ 32 ∧ 192 < 256 ∧ 168 < 256 ∧ 1 < 256 ∧ 2 < 256) ∧
    ip2str 0x0100007F = some (bytes "127.0.0.1") ∧
    str2ip [192, 168, 1, 2] = some 0xC0A80102 ∧
    (str2ip [192, 168, 1, 2]).bind ip2str = some (bytes "2.1.168.192") ∧
    (ip2str 0x0100007F = some (dec (0x0100007F &&& 0xFF) ++ bytes "." ++
        dec ((0x0100007F >>> 8) &&& 0xFF) ++ bytes "." ++
        dec ((0x0100007F >>> 16) &&& 0xFF) ++ bytes "." ++ dec (0x0100007F >>> 24)) ∧
      (0x0100007F &&& 0xFF ≤ 255 ∧ (0x0100007F >>> 8) &&& 0xFF ≤ 255 ∧
        (0x0100007F >>> 16) &&& 0xFF ≤ 255 ∧ 0x0100007F >>> 24 ≤ 255) ∧
      (∀ t, ip2str 0x0100007F = some t → 7 ≤ t.length ∧ t.length ≤ 15 ∧ t.length + 1 ≤ 17) ∧
      str2ip [192, 168, 1, 2] = some ((192 <<< 24 ||| 168 <<< 16 ||| 1 <<< 8 ||| 2) % 2 ^ 32) ∧
      (str2ip [192, 168, 1, 2]).bind ip2str =
        some (dec 2 ++ bytes "." ++ dec 1 ++ bytes "." ++ dec 168 ++ bytes "." ++ dec 192)) :=
  ⟨by norm_num, by decide, by decide, by decide,
    ip2str_dotted_reversed 0x0100007F 192 168 1 2 (by norm_num) (by norm_num) (by norm_num)
      (by norm_num) (by norm_num)⟩

/-! ### Proofs for the driver: bit masks -/

theorem bit_eq (i : Nat) (hi : i < 31) : bit i = 2 ^ i := by
  have h1 : i % 32 = i := Nat.mod_eq_of_lt (by omega)
  have h2 : 2 ^ i < 2 ^ 31 := Nat.pow_lt_pow_right (by norm_num) hi
  have h3 : (2 : Nat) ^ 31 < 2 ^ 32 := by norm_num
  have h4 : (2 : Nat) ^ 32 < 2 ^ 64 := by norm_num
  unfold bit toSizeT toInt32 shl32
  rw [h1, one_mul, Nat.mod_mod, Nat.mod_eq_of_lt (by omega), if_pos h2]
  have h5 : (2 : Nat) ^ i < 2 ^ 64 := by omega
  have h6 : ((2 ^ i : Nat) : Int) % 2 ^ 64 = ((2 ^ i : Nat) : Int) :=
    Int.emod_eq_of_lt (Int.ofNat_nonneg _) (by exact_mod_cast h5)
  rw [h6, Int.toNat_ofNat]

theorem and_two_pow_ne_zero (x i : Nat) : x &&& 2 ^ i ≠ 0 ↔ x.testBit i = true := by
  constructor
  · intro h
    obtain ⟨k, hk⟩ := Nat.ne_zero_implies_bit_true h
    rw [Nat.testBit_and, Nat.testBit_two_pow] at hk
    simp only [Bool.and_eq_true, decide_eq_true_eq] at hk
    rw [hk.2]; exact hk.1
  · intro h h0
    have : (x &&& 2 ^ i).testBit i = true := by
      rw [Nat.testBit_and, Nat.testBit_two_pow_self, h]; rfl
    rw [h0] at this
    simp at this

theorem and_two_pow_eq_zero (x i : Nat) : x &&& 2 ^ i = 0 ↔ x.testBit i = false := by
  rw [← not_iff_not, ← ne_eq, and_two_pow_ne_zero]
  simp

theorem testBit_or_two_pow (x i j : Nat) :
    (x ||| 2 ^ i).testBit j = (x.testBit j || decide (i = j)) := by
  rw [Nat.testBit_or, Nat.testBit_two_pow]

/-- A mask test `x & (1 << i)` for an index below 31 reads bit `i` of `x`. -/
theorem and_bit_ne_zero (x i : Nat) (hi : i < 31) : x &&& bit i ≠ 0 ↔ x.testBit i = true := by
  rw [bit_eq i hi]; exact and_two_pow_ne_zero x i

theorem and_bit_eq_zero (x i : Nat) (hi : i < 31) : x &&& bit i = 0 ↔ x.testBit i = false := by
  rw [bit_eq i hi]; exact and_two_pow_eq_zero x i

theorem or_and_self (x b : Nat) : (x ||| b) &&& b = b := by
  apply Nat.eq_of_testBit_eq
  intro k
  rw [Nat.testBit_and, Nat.testBit_or]
  cases x.testBit k <;> cases b.testBit k <;> rfl

theorem or_and_of_and (x y b : Nat) (h : x &&& b = b) : (x ||| y) &&& b = b := by
  apply Nat.eq_of_testBit_eq
  intro k
  have hk : (x &&& b).testBit k = b.testBit k := by rw [h]
  rw [Nat.testBit_and] at hk
  rw [Nat.testBit_and, Nat.testBit_or]
  revert hk
  cases x.testBit k <;> cases b.testBit k <;> cases y.testBit k <;> simp

/-! ### Proofs for the driver: calls and fields -/

@[simp] theorem record_calls (d : Driver) (c : Call) : (record d c).calls = c :: d.calls := rfl
@[simp] theorem record_completed (d : Driver) (c : Call) : (record d c).completed = d.completed := rfl
@[simp] theorem record_errors (d : Driver) (c : Call) : (record d c).errors = d.errors := rfl
@[simp] theorem record_total_bits (d : Driver) (c : Call) : (record d c).total_bits = d.total_bits := rfl
@[simp] theorem record_eseed (d : Driver) (c : Call) : (record d c).eseed = d.eseed := rfl
@[simp] theorem record_started (d : Driver) (c : Call) : (record d c).started = d.started := rfl
@[simp] theorem record_trail (d : Driver) (c : Call) : (record d c).trail = d.trail := rfl
@[simp] theorem record_report (d : Driver) (c : Call) : (record d c).report = d.report := rfl

@[simp] theorem orCompleted_calls (d : Driver) (i : Nat) : (orCompleted d i).calls = d.calls := rfl
@[simp] theorem orCompleted_completed (d : Driver) (i : Nat) :
    (orCompleted d i).completed = d.completed ||| bit i := rfl
@[simp] theorem orCompleted_errors (d : Driver) (i : Nat) : (orCompleted d i).errors = d.errors := rfl
@[simp] theorem orCompleted_total_bits (d : Driver) (i : Nat) :
    (orCompleted d i).total_bits = d.total_bits := rfl
@[simp] theorem orCompleted_started (d : Driver) (i : Nat) : (orCompleted d i).started = d.started := rfl
@[simp] theorem orCompleted_trail (d : Driver) (i : Nat) :
    (orCompleted d i).trail = ⟨d.total_bits, d.completed ||| bit i, d.errors⟩ :: d.trail := rfl

@[simp] theorem orErrors_calls (d : Driver) (i : Nat) : (orErrors d i).calls = d.calls := rfl
@[simp] theorem orErrors_completed (d : Driver) (i : Nat) : (orErrors d i).completed = d.completed := rfl
@[simp] theorem orErrors_errors (d : Driver) (i : Nat) : (orErrors d i).errors = d.errors ||| bit i := rfl
@[simp] theorem orErrors_total_bits (d : Driver) (i : Nat) : (orErrors d i).total_bits = d.total_bits := rfl
@[simp] theorem orErrors_started (d : Driver) (i : Nat) : (orErrors d i).started = d.started := rfl
@[simp] theorem orErrors_trail (d : Driver) (i : Nat) :
    (orErrors d i).trail = ⟨d.total_bits, d.completed, d.errors ||| bit i⟩ :: d.trail := rfl

@[simp] theorem orTotalBits_calls (d : Driver) (i : Nat) : (orTotalBits d i).calls = d.calls := rfl
@[simp] theorem orTotalBits_completed (d : Driver) (i : Nat) : (orTotalBits d i).completed = d.completed := rfl
@[simp] theorem orTotalBits_errors (d : Driver) (i : Nat) : (orTotalBits d i).errors = d.errors := rfl
@[simp] theorem orTotalBits_total_bits (d : Driver) (i : Nat) :
    (orTotalBits d i).total_bits = d.total_bits ||| bit i := rfl
@[simp] theorem orTotalBits_started (d : Driver) (i : Nat) : (orTotalBits d i).started = d.started := rfl
@[simp] theorem orTotalBits_trail (d : Driver) (i : Nat) :
    (orTotalBits d i).trail = ⟨d.total_bits ||| bit i, d.completed, d.errors⟩ :: d.trail := rfl

@[simp] theorem orEseed_calls (d : Driver) (i : Nat) : (orEseed d i).calls = d.calls := rfl
@[simp] theorem orEseed_completed (d : Driver) (i : Nat) : (orEseed d i).completed = d.completed := rfl
@[simp] theorem orEseed_errors (d : Driver) (i : Nat) : (orEseed d i).errors = d.errors := rfl
@[simp] theorem orEseed_total_bits (d : Driver) (i : Nat) : (orEseed d i).total_bits = d.total_bits := rfl
@[simp] theorem orEseed_trail (d : Driver) (i : Nat) : (orEseed d i).trail = d.trail := rfl
@[simp] theorem orEseed_report (d : Driver) (i : Nat) : (orEseed d i).report = d.report := rfl

theorem recordAll_calls (d : Driver) (cs : List Call) : (recordAll d cs).calls = cs.reverse ++ d.calls := by
  unfold recordAll
  induction cs generalizing d with
  | nil => rfl
  | cons c t ih => simp [ih]

theorem recordAll_fields (d : Driver) (cs : List Call) :
    (recordAll d cs).completed = d.completed ∧ (recordAll d cs).errors = d.errors ∧
    (recordAll d cs).total_bits = d.total_bits ∧ (recordAll d cs).eseed = d.eseed ∧
    (recordAll d cs).started = d.started ∧ (recordAll d cs).trail = d.trail ∧
    (recordAll d cs).report = d.report ∧ (recordAll d cs).startport = d.startport := by
  unfold recordAll
  induction cs generalizing d with
  | nil => simp
  | cons c t ih =>
    simp only [List.foldl_cons]
    have := ih (record d c)
    simpa using this

/-! ### Proofs for the driver: the masks invariant -/

theorem foldl_range_inv (f : Driver → Nat → Driver) (P : Nat → Driver → Prop) (n : Nat)
    (d : Driver) (h0 : P 0 d) (hstep : ∀ i d, i < n → P i d → P (i + 1) (f d i)) :
    P n ((List.range n).foldl f d) := by
  induction n with
  | zero => simpa using h0
  | succ n ih =>
    rw [List.range_succ, List.foldl_append]
    simp only [List.foldl_cons, List.foldl_nil]
    apply hstep n _ (Nat.lt_succ_self n)
    exact ih (fun i d hi => hstep i d (Nat.lt_succ_of_lt hi))

theorem masksOk_of_maskInv (k i t c e : Nat) (hik : i ≤ k) (h : MaskInv k i t c e) :
    MasksOk ⟨t, c, e⟩ := by
  obtain ⟨ht, hc, he, hd⟩ := h
  refine ⟨?_, ?_, ?_⟩
  · apply Nat.eq_of_testBit_eq
    intro j
    simp only [Nat.testBit_and, Nat.zero_testBit]
    cases hcj : c.testBit j
    · rfl
    · simp [hd j hcj]
  · apply Nat.eq_of_testBit_eq
    intro j
    simp only [Nat.testBit_and]
    cases hcj : c.testBit j
    · rfl
    · have := hc j hcj
      simp [ht j]; omega
  · apply Nat.eq_of_testBit_eq
    intro j
    simp only [Nat.testBit_and]
    cases hej : e.testBit j
    · rfl
    · have := he j hej
      simp [ht j]; omega

theorem maskInv_total (i t c e : Nat) (h : MaskInv i i t c e) :
    MaskInv (i + 1) i (t ||| 2 ^ i) c e := by
  obtain ⟨ht, hc, he, hd⟩ := h
  refine ⟨?_, hc, he, hd⟩
  intro j
  rw [testBit_or_two_pow, ht j]
  by_cases h1 : j < i
  · simp [h1]; omega
  · by_cases h2 : i = j
    · simp [h2]
    · simp [h1, h2]; omega

theorem maskInv_completed (k i t c e : Nat) (h : MaskInv k i t c e) (hi : e.testBit i = false) :
    MaskInv k (i + 1) t (c ||| 2 ^ i) e := by
  obtain ⟨ht, hc, he, hd⟩ := h
  refine ⟨ht, ?_, ?_, ?_⟩
  · intro j hj
    rw [testBit_or_two_pow] at hj
    simp only [Bool.or_eq_true, decide_eq_true_eq] at hj
    rcases hj with hj | hj
    · have := hc j hj; omega
    · omega
  · intro j hj
    have := he j hj; omega
  · intro j hj
    rw [testBit_or_two_pow] at hj
    simp only [Bool.or_eq_true, decide_eq_true_eq] at hj
    rcases hj with hj | hj
    · exact hd j hj
    · rw [← hj]; exact hi

theorem maskInv_errors (k i t c e : Nat) (h : MaskInv k i t c e) (hi : c.testBit i = false) :
    MaskInv k (i + 1) t c (e ||| 2 ^ i) := by
  obtain ⟨ht, hc, he, hd⟩ := h
  refine ⟨ht, ?_, ?_, ?_⟩
  · intro j hj
    have := hc j hj; omega
  · intro j hj
    rw [testBit_or_two_pow] at hj
    simp only [Bool.or_eq_true, decide_eq_true_eq] at hj
    rcases hj with hj | hj
    · have := he j hj; omega
    · omega
  · intro j hj
    rw [testBit_or_two_pow]
    have hji : i ≠ j := by
      intro e1
      rw [e1] at hi
      rw [hi] at hj
      exact Bool.false_ne_true hj
    simp [hd j hj, hji]

theorem maskInv_weaken (k i t c e : Nat) (h : MaskInv k i t c e) : MaskInv k (i + 1) t c e := by
  obtain ⟨ht, hc, he, hd⟩ := h
  exact ⟨ht, fun j hj => by have := hc j hj; omega, fun j hj => by have := he j hj; omega, hd⟩

theorem maskInv_fresh (k i t c e : Nat) (h : MaskInv k i t c e) :
    c.testBit i = false ∧ e.testBit i = false := by
  obtain ⟨_, hc, he, _⟩ := h
  constructor
  · cases hci : c.testBit i
    · rfl
    · have := hc i hci; omega
  · cases hei : e.testBit i
    · rfl
    · have := he i hei; omega

/-- The effect of one pass of the set-up loop on the masks: the bit joins `total_bits`, and
then `errors`, or `completed`, or neither (the torrent was started). -/
theorem setupStep_masks (w : World) (cfg : Config) (d : Driver) (i : Nat) :
    (setupStep w cfg d i).total_bits = d.total_bits ||| bit i ∧
    (((setupStep w cfg d i).completed = d.completed ∧
        (setupStep w cfg d i).errors = d.errors ||| bit i ∧
        (setupStep w cfg d i).started = d.started ∧
        (setupStep w cfg d i).trail =
          ⟨d.total_bits ||| bit i, d.completed, d.errors ||| bit i⟩ ::
            ⟨d.total_bits ||| bit i, d.completed, d.errors⟩ :: d.trail) ∨
     ((setupStep w cfg d i).completed = d.completed ||| bit i ∧
        (setupStep w cfg d i).errors = d.errors ∧
        (setupStep w cfg d i).started = d.started ∧
        (setupStep w cfg d i).trail =
          ⟨d.total_bits ||| bit i, d.completed ||| bit i, d.errors⟩ ::
            ⟨d.total_bits ||| bit i, d.completed, d.errors⟩ :: d.trail) ∨
     (cfg.nodownload = false ∧
        (setupStep w cfg d i).completed = d.completed ∧
        (setupStep w cfg d i).errors = d.errors ∧
        (setupStep w cfg d i).started = (d.started + 1) % 2 ^ 64 ∧
        (setupStep w cfg d i).trail =
          ⟨d.total_bits ||| bit i, d.completed, d.errors⟩ :: d.trail)) := by
  unfold setupStep
  simp only
  split
  · exact ⟨rfl, Or.inl ⟨rfl, rfl, rfl, rfl⟩⟩
  · split
    · obtain ⟨h1, h2, h3, _, h5, h6, _, _⟩ := recordAll_fields
        (record (record (orTotalBits d i) (.torrent i .open_)) (.torrent i .meta))
        [.torrent i .fileManager, .torrent i .name, .torrent i .totalSize,
          .torrent i .name, .torrent i .completedPieces, .torrent i .totalPieces,
          .torrent i .name, .torrent i .pieceLength]
      refine ⟨?_, Or.inr (Or.inl ⟨?_, ?_, ?_, ?_⟩)⟩
      · simp [h3]
      · simp [h1]
      · simp [h2]
      · simp [h5]
      · simp [h1, h2, h3, h6]
    · rename_i hnd
      have hnd2 : cfg.nodownload = false := by simpa using hnd
      split
      · exact ⟨rfl, Or.inr (Or.inr ⟨hnd2, rfl, rfl, rfl, rfl⟩)⟩
      · exact ⟨rfl, Or.inr (Or.inl ⟨rfl, rfl, rfl, rfl⟩)⟩
      · exact ⟨rfl, Or.inl ⟨rfl, rfl, rfl, rfl⟩⟩

theorem setupStep_inv (w : World) (cfg : Config) (i : Nat) (d : Driver) (hi : i < 31)
    (h : SetupInv cfg i d) : SetupInv cfg (i + 1) (setupStep w cfg d i) := by
  obtain ⟨hm, htr, hs, hnd, hcov⟩ := h
  obtain ⟨hfc, hfe⟩ := maskInv_fresh _ _ _ _ _ hm
  have hm1 := maskInv_total _ _ _ _ hm
  have hok1 : MasksOk ⟨d.total_bits ||| 2 ^ i, d.completed, d.errors⟩ :=
    masksOk_of_maskInv _ _ _ _ _ (Nat.le_succ i) hm1
  obtain ⟨ht, hcases⟩ := setupStep_masks w cfg d i
  rw [bit_eq i hi] at ht hcases
  unfold SetupInv
  rcases hcases with ⟨hc, he, hst, htrail⟩ | ⟨hc, he, hst, htrail⟩ | ⟨hn, hc, he, hst, htrail⟩
  · have hm2 := maskInv_errors _ _ _ _ _ hm1 hfc
    rw [ht, hc, he, hst, htrail]
    refine ⟨hm2, ?_, by omega, hnd, ?_⟩
    · intro m hmem
      simp only [List.mem_cons] at hmem
      rcases hmem with rfl | rfl | hmem
      · exact masksOk_of_maskInv _ _ _ _ _ (le_refl _) hm2
      · exact hok1
      · exact htr m hmem
    · intro h0 j hj
      rcases Nat.lt_succ_iff_lt_or_eq.1 hj with hlt | heq
      · rcases hcov h0 j hlt with h1 | h1
        · exact Or.inl h1
        · right; rw [testBit_or_two_pow, h1]; rfl
      · right; rw [testBit_or_two_pow, heq]; simp
  · have hm2 := maskInv_completed _ _ _ _ _ hm1 hfe
    rw [ht, hc, he, hst, htrail]
    refine ⟨hm2, ?_, by omega, hnd, ?_⟩
    · intro m hmem
      simp only [List.mem_cons] at hmem
      rcases hmem with rfl | rfl | hmem
      · exact masksOk_of_maskInv _ _ _ _ _ (le_refl _) hm2
      · exact hok1
      · exact htr m hmem
    · intro h0 j hj
      rcases Nat.lt_succ_iff_lt_or_eq.1 hj with hlt | heq
      · rcases hcov h0 j hlt with h1 | h1
        · left; rw [testBit_or_two_pow, h1]; rfl
        · exact Or.inr h1
      · left; rw [testBit_or_two_pow, heq]; simp
  · have hm2 := maskInv_weaken _ _ _ _ _ hm1
    rw [ht, hc, he, hst, htrail]
    have hlt : d.started + 1 < 2 ^ 64 := by omega
    rw [Nat.mod_eq_of_lt hlt]
    refine ⟨hm2, ?_, by omega, ?_, ?_⟩
    · intro m hmem
      simp only [List.mem_cons] at hmem
      rcases hmem with rfl | hmem
      · exact hok1
      · exact htr m hmem
    · intro h1; rw [hn] at h1; exact absurd h1 (by decide)
    · intro h0; omega

theorem initial_inv (cfg : Config) : SetupInv cfg 0 (initial cfg) := by
  refine ⟨⟨?_, ?_, ?_, ?_⟩, ?_, ?_, ?_, ?_⟩
  · intro j; simp [initial]
  · intro j hj; simp [initial] at hj
  · intro j hj; simp [initial] at hj
  · intro j hj; simp [initial] at hj
  · intro m hm
    simp only [initial, List.mem_singleton] at hm
    rw [hm]
    exact ⟨rfl, rfl, rfl⟩
  · exact Nat.le_refl 0
  · intro _; rfl
  · intro _ j hj; omega

theorem setup_inv (w : World) (cfg : Config) (h : cfg.total ≤ 31) :
    SetupInv cfg cfg.total (setup w cfg) := by
  unfold setup
  apply foldl_range_inv (setupStep w cfg) (SetupInv cfg) cfg.total (initial cfg) (initial_inv cfg)
  intro i d hi hinv
  exact setupStep_inv w cfg i d (by omega) hinv

theorem sameMasks_refl (d : Driver) : SameMasks d d := ⟨rfl, rfl, rfl, rfl, rfl, rfl⟩

theorem sameMasks_trans {d e f : Driver} (h1 : SameMasks d e) (h2 : SameMasks e f) :
    SameMasks d f := by
  unfold SameMasks at h1 h2 ⊢
  refine ⟨h2.1.trans h1.1, h2.2.1.trans h1.2.1, h2.2.2.1.trans h1.2.2.1, ?_, ?_, ?_⟩
  · exact h2.2.2.2.1.trans h1.2.2.2.1
  · exact h2.2.2.2.2.1.trans h1.2.2.2.2.1
  · exact h2.2.2.2.2.2.trans h1.2.2.2.2.2

theorem sameMasks_record (d : Driver) (c : Call) : SameMasks d (record d c) :=
  ⟨rfl, rfl, rfl, rfl, rfl, rfl⟩

theorem sameMasks_orEseed (d : Driver) (i : Nat) : SameMasks d (orEseed d i) :=
  ⟨rfl, rfl, rfl, rfl, rfl, rfl⟩

theorem sameMasks_foldl (f : Driver → Nat → Driver) (h : ∀ d i, SameMasks d (f d i))
    (l : List Nat) (d : Driver) : SameMasks d (l.foldl f d) := by
  induction l generalizing d with
  | nil => exact sameMasks_refl d
  | cons i t ih => exact sameMasks_trans (h d i) (ih (f d i))

theorem sameMasks_print_stats (d : Driver) (i : Nat) : SameMasks d (print_stats d i) := by
  obtain ⟨h1, h2, h3, _, h5, h6, h7, _⟩ := recordAll_fields d (statsMethods.map (Call.torrent i))
  exact ⟨h3, h1, h2, h5, h6, h7⟩

theorem sameMasks_print_all_stats (d : Driver) (n : Nat) : SameMasks d (print_all_stats d n) :=
  sameMasks_foldl print_stats sameMasks_print_stats (List.range n) d

/-- The effect of one pass of the download `for` loop on the masks: nothing, or bit `i`
joins `completed` after the `errors` test found it clear. -/
theorem downloadStep_masks (w : World) (cfg : Config) (d : Driver) (i : Nat) :
    (downloadStep w cfg d i).total_bits = d.total_bits ∧
    (downloadStep w cfg d i).errors = d.errors ∧
    (downloadStep w cfg d i).started = d.started ∧
    (downloadStep w cfg d i).report = d.report ∧
    (((downloadStep w cfg d i).completed = d.completed ∧
        (downloadStep w cfg d i).trail = d.trail) ∨
     (d.errors &&& bit i = 0 ∧
        (downloadStep w cfg d i).completed = d.completed ||| bit i ∧
        (downloadStep w cfg d i).trail =
          ⟨d.total_bits, d.completed ||| bit i, d.errors⟩ :: d.trail)) := by
  unfold downloadStep
  split
  · exact ⟨rfl, rfl, rfl, rfl, Or.inl ⟨rfl, rfl⟩⟩
  · rename_i herr
    have herr2 : d.errors &&& bit i = 0 := by simpa using herr
    simp only
    split
    · split
      · exact ⟨rfl, rfl, rfl, rfl, Or.inr ⟨herr2, rfl, rfl⟩⟩
      · exact ⟨rfl, rfl, rfl, rfl, Or.inr ⟨herr2, rfl, rfl⟩⟩
    · split <;> split <;> (try split) <;> exact ⟨rfl, rfl, rfl, rfl, Or.inl ⟨rfl, rfl⟩⟩

theorem maskInv_completed_within (k n i t c e : Nat) (h : MaskInv k n t c e) (hin : i < n)
    (hi : e.testBit i = false) : MaskInv k n t (c ||| 2 ^ i) e := by
  obtain ⟨ht, hc, he, hd⟩ := h
  refine ⟨ht, ?_, he, ?_⟩
  · intro j hj
    rw [testBit_or_two_pow] at hj
    simp only [Bool.or_eq_true, decide_eq_true_eq] at hj
    rcases hj with hj | hj
    · exact hc j hj
    · omega
  · intro j hj
    rw [testBit_or_two_pow] at hj
    simp only [Bool.or_eq_true, decide_eq_true_eq] at hj
    rcases hj with hj | hj
    · exact hd j hj
    · rw [← hj]; exact hi

theorem downloadInv_of_sameMasks (cfg : Config) (d e : Driver) (h : DownloadInv cfg d)
    (hs : SameMasks d e) : DownloadInv cfg e := by
  obtain ⟨a1, a2, a3, _, a5, _⟩ := hs
  unfold DownloadInv
  rw [a1, a2, a3, a5]
  exact h

theorem downloadStep_inv (w : World) (cfg : Config) (d : Driver) (i : Nat) (ht : cfg.total ≤ 31)
    (hi : i < cfg.total) (h : DownloadInv cfg d) : DownloadInv cfg (downloadStep w cfg d i) := by
  obtain ⟨hm, htr⟩ := h
  obtain ⟨e1, e2, _, _, hcases⟩ := downloadStep_masks w cfg d i
  unfold DownloadInv
  rcases hcases with ⟨hc, htrail⟩ | ⟨herr, hc, htrail⟩
  · rw [e1, e2, hc, htrail]; exact ⟨hm, htr⟩
  · have hi31 : i < 31 := by omega
    rw [bit_eq i hi31] at hc htrail
    have hbit : d.errors.testBit i = false := (and_bit_eq_zero _ _ hi31).1 herr
    have hm2 := maskInv_completed_within _ _ _ _ _ _ hm hi hbit
    rw [e1, e2, hc, htrail]
    refine ⟨hm2, ?_⟩
    intro m hmem
    simp only [List.mem_cons] at hmem
    rcases hmem with rfl | hmem
    · exact masksOk_of_maskInv _ _ _ _ _ (le_refl _) hm2
    · exact htr m hmem

theorem downloadPass_inv (w : World) (cfg : Config) (d : Driver) (ht : cfg.total ≤ 31)
    (h : DownloadInv cfg d) : DownloadInv cfg (downloadPass w cfg d) := by
  unfold downloadPass
  exact foldl_range_inv (downloadStep w cfg) (fun _ e => DownloadInv cfg e) cfg.total d h
    (fun i e hi he => downloadStep_inv w cfg e i ht hi he)

theorem downloadPass_started (w : World) (cfg : Config) (d : Driver) :
    (downloadPass w cfg d).started = d.started := by
  unfold downloadPass
  exact foldl_range_inv (downloadStep w cfg) (fun _ e => e.started = d.started) cfg.total d rfl
    (fun i e _ he => ((downloadStep_masks w cfg e i).2.2.1).trans he)

theorem downloadIteration_inv (w : World) (cfg : Config) (d : Driver) (ht : cfg.total ≤ 31)
    (h : DownloadInv cfg d) : DownloadInv cfg (downloadIteration w cfg d) := by
  unfold downloadIteration
  exact downloadInv_of_sameMasks cfg _ _ (downloadPass_inv w cfg d ht h)
    (sameMasks_trans (sameMasks_record _ _) (sameMasks_print_all_stats _ _))

theorem downloadIteration_started (w : World) (cfg : Config) (d : Driver) :
    (downloadIteration w cfg d).started = d.started := by
  unfold downloadIteration
  have h := sameMasks_trans (sameMasks_record (downloadPass w cfg d) .poll)
    (sameMasks_print_all_stats _ cfg.total)
  rw [h.2.2.2.1, downloadPass_started]

theorem downloadLoop_inv (w : World) (cfg : Config) (fuel : Nat) (d : Driver)
    (ht : cfg.total ≤ 31) (h : DownloadInv cfg d) :
    DownloadInv cfg (downloadLoop w cfg fuel d) ∧ (downloadLoop w cfg fuel d).started = d.started := by
  induction fuel generalizing d with
  | zero => exact ⟨h, rfl⟩
  | succ n ih =>
    unfold downloadLoop
    split
    · obtain ⟨h1, h2⟩ := ih (downloadIteration w cfg d) (downloadIteration_inv w cfg d ht h)
      exact ⟨h1, h2.trans (downloadIteration_started w cfg d)⟩
    · exact ⟨h, rfl⟩

theorem downloadPhase_inv (w : World) (cfg : Config) (fuel : Nat) (ht : cfg.total ≤ 31) :
    DownloadInv cfg (downloadPhase w cfg fuel (setup w cfg)) ∧
    (downloadPhase w cfg fuel (setup w cfg)).started = (setup w cfg).started := by
  obtain ⟨hm, htr, _, _, _⟩ := setup_inv w cfg ht
  have h0 : DownloadInv cfg (setup w cfg) := ⟨hm, htr⟩
  unfold downloadPhase
  split
  · exact downloadLoop_inv w cfg fuel _ ht h0
  · exact ⟨h0, rfl⟩

theorem setupStep_report (w : World) (cfg : Config) (d : Driver) (i : Nat) :
    (setupStep w cfg d i).report = d.report := by
  unfold setupStep
  simp only
  split
  · rfl
  · split
    · have h := (recordAll_fields
        (record (record (orTotalBits d i) (.torrent i .open_)) (.torrent i .meta))
        [.torrent i .fileManager, .torrent i .name, .torrent i .totalSize,
          .torrent i .name, .torrent i .completedPieces, .torrent i .totalPieces,
          .torrent i .name, .torrent i .pieceLength]).2.2.2.2.2.2.1
      show (recordAll _ _).report = d.report
      rw [h]; rfl
    · split <;> rfl

theorem setup_report (w : World) (cfg : Config) : (setup w cfg).report = [] := by
  unfold setup
  exact foldl_range_inv (setupStep w cfg) (fun _ e => e.report = []) cfg.total (initial cfg) rfl
    (fun i e _ he => (setupStep_report w cfg e i).trans he)

theorem downloadLoop_report (w : World) (cfg : Config) (fuel : Nat) (d : Driver) :
    (downloadLoop w cfg fuel d).report = d.report := by
  induction fuel generalizing d with
  | zero => rfl
  | succ n ih =>
    unfold downloadLoop
    split
    · rw [ih]
      unfold downloadIteration
      have h := sameMasks_trans (sameMasks_record (downloadPass w cfg d) .poll)
        (sameMasks_print_all_stats _ cfg.total)
      rw [h.2.2.2.2.2]
      unfold downloadPass
      exact foldl_range_inv (downloadStep w cfg) (fun _ e => e.report = d.report) cfg.total d rfl
        (fun i e _ he => ((downloadStep_masks w cfg e i).2.2.2.1).trans he)
    · rfl

theorem downloadPhase_report (w : World) (cfg : Config) (fuel : Nat) :
    (downloadPhase w cfg fuel (setup w cfg)).report = [] := by
  unfold downloadPhase
  split
  · rw [downloadLoop_report]; exact setup_report w cfg
  · exact setup_report w cfg

/-- When control reaches the end of the download phase, every index below `total` has its bit
in exactly one of `completed` and `errors`. -/
theorem downloadPhase_partition (w : World) (cfg : Config) (fuel : Nat) (ht : cfg.total ≤ 31)
    (hover : downloadOver cfg (downloadPhase w cfg fuel (setup w cfg)) = true)
    (i : Nat) (hi : i < cfg.total) :
    ((downloadPhase w cfg fuel (setup w cfg)).completed.testBit i = true ∧
      (downloadPhase w cfg fuel (setup w cfg)).errors.testBit i = false) ∨
    ((downloadPhase w cfg fuel (setup w cfg)).completed.testBit i = false ∧
      (downloadPhase w cfg fuel (setup w cfg)).errors.testBit i = true) := by
  obtain ⟨_, _, _, hnd, hcov⟩ := setup_inv w cfg ht
  obtain ⟨⟨⟨htb, _, _, hdis⟩, _⟩, hst⟩ := downloadPhase_inv w cfg fuel ht
  have hcover : (downloadPhase w cfg fuel (setup w cfg)).completed.testBit i = true ∨
      (downloadPhase w cfg fuel (setup w cfg)).errors.testBit i = true := by
    by_cases hg : downloadGuard cfg (setup w cfg) = true
    · have hg2 : downloadGuard cfg (downloadPhase w cfg fuel (setup w cfg)) = true := by
        unfold downloadGuard at hg ⊢
        rw [hst]; exact hg
      unfold downloadOver at hover
      rw [hg2] at hover
      have hc : downloadCond (downloadPhase w cfg fuel (setup w cfg)) = false := by
        simpa using hover
      unfold downloadCond at hc
      have hx : (downloadPhase w cfg fuel (setup w cfg)).total_bits =
          (downloadPhase w cfg fuel (setup w cfg)).completed |||
            (downloadPhase w cfg fuel (setup w cfg)).errors := by
        apply Nat.xor_eq_zero.1
        simpa using hc
      have hb := htb i
      rw [hx, Nat.testBit_or] at hb
      simp only [hi, decide_True, Bool.or_eq_true] at hb
      exact hb
    · have hd : downloadPhase w cfg fuel (setup w cfg) = setup w cfg := by
        unfold downloadPhase
        rw [if_neg hg]
      rw [hd]
      have h0 : (setup w cfg).started = 0 := by
        unfold downloadGuard at hg
        cases hn : cfg.nodownload
        · simp [hn] at hg; exact hg
        · exact hnd hn
      exact hcov h0 i hi
  rcases hcover with hc | he
  · exact Or.inl ⟨hc, hdis i hc⟩
  · right
    refine ⟨?_, he⟩
    cases hc : (downloadPhase w cfg fuel (setup w cfg)).completed.testBit i
    · rfl
    · have := hdis i hc
      rw [he] at this
      exact absurd this (by decide)

theorem sameMasks_seedMark (w : World) (d : Driver) (i : Nat) : SameMasks d (seedMark w d i) := by
  unfold seedMark
  simp only
  split
  · exact sameMasks_trans (sameMasks_record _ _) (sameMasks_orEseed _ _)
  · exact sameMasks_record _ _

theorem sameMasks_seedStep (w : World) (cfg : Config) (d : Driver) (i : Nat) :
    SameMasks d (seedStep w cfg d i) := by
  unfold seedStep
  simp only
  split
  · exact sameMasks_trans (sameMasks_record _ _) (sameMasks_orEseed _ _)
  · split
    · split
      · exact ⟨rfl, rfl, rfl, rfl, rfl, rfl⟩
      · exact ⟨rfl, rfl, rfl, rfl, rfl, rfl⟩
    · exact ⟨rfl, rfl, rfl, rfl, rfl, rfl⟩

theorem sameMasks_seedIteration (w : World) (cfg : Config) (d : Driver) :
    SameMasks d (seedIteration w cfg d) := by
  unfold seedIteration
  exact sameMasks_trans (sameMasks_foldl (seedStep w cfg) (sameMasks_seedStep w cfg) _ d)
    (sameMasks_trans (sameMasks_record _ _) (sameMasks_print_all_stats _ _))

theorem sameMasks_seedLoop (w : World) (cfg : Config) (fuel : Nat) (d : Driver) :
    SameMasks d (seedLoop w cfg fuel d) := by
  induction fuel generalizing d with
  | zero => exact sameMasks_refl d
  | succ n ih =>
    unfold seedLoop
    split
    · exact sameMasks_trans (sameMasks_seedIteration w cfg d) (ih _)
    · exact sameMasks_refl d

theorem sameMasks_seedPhase (w : World) (cfg : Config) (fuel : Nat) (d : Driver) :
    SameMasks d (seedPhase w cfg fuel d) := by
  unfold seedPhase
  split
  · exact sameMasks_trans (sameMasks_foldl (seedMark w) (sameMasks_seedMark w) _ d)
      (sameMasks_seedLoop w cfg fuel _)
  · exact sameMasks_refl d

theorem label_reportStep (d : Driver) (i j : Nat) : label (reportStep d i) j = label d j := rfl

theorem foldl_reportStep_report (l : List Nat) (d : Driver) :
    (l.foldl reportStep d).report = d.report ++ l.map (label d) := by
  induction l generalizing d with
  | nil => simp
  | cons i t ih =>
    rw [List.foldl_cons, ih (reportStep d i)]
    have h1 : (reportStep d i).report = d.report ++ [label d i] := rfl
    have h2 : t.map (label (reportStep d i)) = t.map (label d) :=
      List.map_congr_left (fun j _ => label_reportStep d i j)
    rw [h1, h2]
    simp

theorem finalReport_report (cfg : Config) (d : Driver) :
    (finalReport cfg d).report = d.report ++ (List.range cfg.total).map (label d) :=
  foldl_reportStep_report _ d

/-- C9: in every run with at most 31 torrent files, at every point of the set-up loop and of
the download loop the `completed` and `errors` masks are disjoint and lie within `total_bits`;
when control reaches the end of the download phase every index below `total` has its bit in
exactly one of the two; and the final report labels every torrent `Completed` or
`Something went wrong downloading`, never `Failed to seed`. -/
theorem masks_partition (w : World) (cfg : Config) (fuel : Nat) (ht : cfg.total ≤ 31) :
    (∀ m ∈ (downloadPhase w cfg fuel (setup w cfg)).trail, MasksOk m) ∧
    MasksOk (downloadPhase w cfg fuel (setup w cfg)).masks ∧
    (downloadOver cfg (downloadPhase w cfg fuel (setup w cfg)) = true →
      ∀ i, i < cfg.total →
        ((downloadPhase w cfg fuel (setup w cfg)).completed &&& bit i ≠ 0 ∧
          (downloadPhase w cfg fuel (setup w cfg)).errors &&& bit i = 0) ∨
        ((downloadPhase w cfg fuel (setup w cfg)).completed &&& bit i = 0 ∧
          (downloadPhase w cfg fuel (setup w cfg)).errors &&& bit i ≠ 0)) ∧
    (∀ e, main w cfg fuel = some e →
      e.report.length = cfg.total ∧
      (∀ l ∈ e.report, l = Label.Completed ∨ l = Label.WentWrong) ∧
      Label.FailedToSeed ∉ e.report) := by
  obtain ⟨⟨hm, htr⟩, _⟩ := downloadPhase_inv w cfg fuel ht
  have hpart : downloadOver cfg (downloadPhase w cfg fuel (setup w cfg)) = true →
      ∀ i, i < cfg.total →
        ((downloadPhase w cfg fuel (setup w cfg)).completed &&& bit i ≠ 0 ∧
          (downloadPhase w cfg fuel (setup w cfg)).errors &&& bit i = 0) ∨
        ((downloadPhase w cfg fuel (setup w cfg)).completed &&& bit i = 0 ∧
          (downloadPhase w cfg fuel (setup w cfg)).errors &&& bit i ≠ 0) := by
    intro hover i hi
    have hi31 : i < 31 := by omega
    rw [and_bit_ne_zero _ i hi31, and_bit_eq_zero _ i hi31, and_bit_ne_zero _ i hi31,
      and_bit_eq_zero _ i hi31]
    exact downloadPhase_partition w cfg fuel ht hover i hi
  have hlabels : ∀ e, main w cfg fuel = some e →
      e.report.length = cfg.total ∧ (∀ l ∈ e.report, l = Label.Completed ∨ l = Label.WentWrong) := by
    intro e he
    unfold main at he
    simp only at he
    split at he
    · rename_i hover
      split at he
      · injection he with he
        obtain ⟨_, s2, s3, _, _, s6⟩ :=
          sameMasks_seedPhase w cfg fuel (downloadPhase w cfg fuel (setup w cfg))
        have hrep : e.report = (List.range cfg.total).map
            (label (seedPhase w cfg fuel (downloadPhase w cfg fuel (setup w cfg)))) := by
          rw [← he, finalReport_report, s6, downloadPhase_report]
          rfl
        refine ⟨by rw [hrep]; simp, ?_⟩
        intro l hl
        rw [hrep, List.mem_map] at hl
        obtain ⟨i, hi, rfl⟩ := hl
        have hi2 : i < cfg.total := List.mem_range.1 hi
        unfold label
        rw [s2, s3]
        rcases hpart hover i hi2 with ⟨h1, _⟩ | ⟨h1, h2⟩
        · left; rw [if_pos h1]
        · right; rw [if_neg (by rw [h1]; simp), if_pos h2]
      · exact absurd he (by simp)
    · exact absurd he (by simp)
  refine ⟨htr, masksOk_of_maskInv _ _ _ _ _ (le_refl _) hm, hpart, ?_⟩
  intro e he
  obtain ⟨h1, h2⟩ := hlabels e he
  refine ⟨h1, h2, ?_⟩
  intro hmem
  rcases h2 _ hmem with h | h <;> exact absurd h (by decide)

/-! ### Proofs for the driver: the calls of one download iteration -/

theorem callsSince_of_append (d e : Driver) (new : List Call) (h : e.calls = new ++ d.calls) :
    callsSince d e = new.reverse := by
  unfold callsSince
  rw [h]
  simp

theorem range_split (n i : Nat) (hi : i < n) :
    List.range n = List.range i ++ i :: List.range' (i + 1) (n - (i + 1)) := by
  have h1 : n = ((n - (i + 1)) + 1) + i := by omega
  rw [List.range_eq_range', List.range_eq_range']
  conv_lhs => rw [h1]
  rw [← List.range'_append_1, Nat.zero_add, List.range'_succ]

/-- The calls made by the body of the download `for` loop for index `i`: none for an errored
torrent; for a finished one `isFinished` and at most `finish`; otherwise `isFinished`, the
peer count when a cap is set, `checkTrackers` exactly when the cap allows, and at most
`nextConnection`. All of them are calls on torrent `i`. -/
theorem downloadStep_calls (w : World) (cfg : Config) (d : Driver) (i : Nat) :
    ∃ new : List Call, (downloadStep w cfg d i).calls = new ++ d.calls ∧
      (∀ c ∈ new, ∃ m, c = Call.torrent i m) ∧
      (d.errors &&& bit i ≠ 0 → new = []) ∧
      (d.errors &&& bit i = 0 → answer w d (.torrent i .isFinished) ≠ 0 →
        Call.torrent i .checkTrackers ∉ new ∧ Call.torrent i .nextConnection ∉ new ∧
        (downloadStep w cfg d i).completed &&& bit i = bit i) ∧
      (d.errors &&& bit i = 0 → answer w d (.torrent i .isFinished) = 0 →
        (Call.torrent i .checkTrackers ∈ new ↔
          cfg.max_peers = 0 ∨
            answer w (record d (.torrent i .isFinished)) (.torrent i .activePeers) < cfg.max_peers)) := by
  unfold downloadStep
  by_cases herr : d.errors &&& bit i ≠ 0
  · rw [if_pos herr]
    exact ⟨[], rfl, by simp, fun _ => rfl, fun h => absurd h herr, fun h => absurd h herr⟩
  · rw [if_neg herr]
    simp only
    by_cases hfin : answer w d (.torrent i .isFinished) ≠ 0
    · rw [if_pos hfin]
      by_cases hns : (!cfg.noseed) = true
      · rw [if_pos hns]
        refine ⟨[.torrent i .finish, .torrent i .isFinished], rfl, ?_, fun h => absurd h herr, ?_,
          fun _ h => absurd h hfin⟩
        · intro c hc
          simp only [List.mem_cons, List.mem_singleton, List.not_mem_nil, or_false] at hc
          rcases hc with rfl | rfl <;> exact ⟨_, rfl⟩
        · intro _ _
          exact ⟨by simp, by simp, or_and_self _ _⟩
      · rw [if_neg hns]
        refine ⟨[.torrent i .isFinished], rfl, ?_, fun h => absurd h herr, ?_,
          fun _ h => absurd h hfin⟩
        · intro c hc
          simp only [List.mem_singleton] at hc
          exact ⟨_, hc⟩
        · intro _ _
          exact ⟨by simp, by simp, or_and_self _ _⟩
    · rw [if_neg hfin]
      by_cases hmax : cfg.max_peers = 0
      · rw [if_pos hmax]
        by_cases hns : (!cfg.noseed) = true
        · rw [if_pos hns]
          refine ⟨[.torrent i .nextConnection, .torrent i .checkTrackers, .torrent i .isFinished],
            rfl, ?_, fun h => absurd h herr, fun _ h => absurd h hfin, ?_⟩
          · intro c hc
            simp only [List.mem_cons, List.mem_singleton, List.not_mem_nil, or_false] at hc
            rcases hc with rfl | rfl | rfl <;> exact ⟨_, rfl⟩
          · intro _ _
            simp [hmax]
        · rw [if_neg hns]
          refine ⟨[.torrent i .checkTrackers, .torrent i .isFinished],
            rfl, ?_, fun h => absurd h herr, fun _ h => absurd h hfin, ?_⟩
          · intro c hc
            simp only [List.mem_cons, List.mem_singleton, List.not_mem_nil, or_false] at hc
            rcases hc with rfl | rfl <;> exact ⟨_, rfl⟩
          · intro _ _
            simp [hmax]
      · rw [if_neg hmax]
        by_cases hap : answer w (record d (.torrent i .isFinished)) (.torrent i .activePeers)
            < cfg.max_peers
        · rw [if_pos hap]
          by_cases hns : (!cfg.noseed) = true
          · rw [if_pos hns]
            refine ⟨[.torrent i .nextConnection, .torrent i .checkTrackers, .torrent i .activePeers,
              .torrent i .isFinished], rfl, ?_, fun h => absurd h herr, fun _ h => absurd h hfin, ?_⟩
            · intro c hc
              simp only [List.mem_cons, List.mem_singleton, List.not_mem_nil, or_false] at hc
              rcases hc with rfl | rfl | rfl | rfl <;> exact ⟨_, rfl⟩
            · intro _ _
              simp [hap]
          · rw [if_neg hns]
            refine ⟨[.torrent i .checkTrackers, .torrent i .activePeers,
              .torrent i .isFinished], rfl, ?_, fun h => absurd h herr, fun _ h => absurd h hfin, ?_⟩
            · intro c hc
              simp only [List.mem_cons, List.mem_singleton, List.not_mem_nil, or_false] at hc
              rcases hc with rfl | rfl | rfl <;> exact ⟨_, rfl⟩
            · intro _ _
              simp [hap]
        · rw [if_neg hap]
          by_cases hns : (!cfg.noseed) = true
          · rw [if_pos hns]
            refine ⟨[.torrent i .nextConnection, .torrent i .activePeers,
              .torrent i .isFinished], rfl, ?_, fun h => absurd h herr, fun _ h => absurd h hfin, ?_⟩
            · intro c hc
              simp only [List.mem_cons, List.mem_singleton, List.not_mem_nil, or_false] at hc
              rcases hc with rfl | rfl | rfl <;> exact ⟨_, rfl⟩
            · intro _ _
              simp [hap, hmax]
          · rw [if_neg hns]
            refine ⟨[.torrent i .activePeers, .torrent i .isFinished], rfl, ?_,
              fun h => absurd h herr, fun _ h => absurd h hfin, ?_⟩
            · intro c hc
              simp only [List.mem_cons, List.mem_singleton, List.not_mem_nil, or_false] at hc
              rcases hc with rfl | rfl <;> exact ⟨_, rfl⟩
            · intro _ _
              simp [hap, hmax]

theorem downloadFold_calls (w : World) (cfg : Config) (l : List Nat) (d : Driver) :
    ∃ new : List Call, (l.foldl (downloadStep w cfg) d).calls = new ++ d.calls ∧
      ∀ c ∈ new, ∃ j ∈ l, ∃ m, c = Call.torrent j m := by
  induction l generalizing d with
  | nil => exact ⟨[], rfl, by simp⟩
  | cons i t ih =>
    obtain ⟨n1, h1, p1, _⟩ := downloadStep_calls w cfg d i
    obtain ⟨n2, h2, p2⟩ := ih (downloadStep w cfg d i)
    refine ⟨n2 ++ n1, ?_, ?_⟩
    · rw [List.foldl_cons, h2, h1, List.append_assoc]
    · intro c hc
      rcases List.mem_append.1 hc with hc | hc
      · obtain ⟨j, hj, m, rfl⟩ := p2 c hc
        exact ⟨j, List.mem_cons_of_mem i hj, m, rfl⟩
      · obtain ⟨m, rfl⟩ := p1 c hc
        exact ⟨i, List.mem_cons_self i t, m, rfl⟩

theorem downloadFold_errors (w : World) (cfg : Config) (l : List Nat) (d : Driver) :
    (l.foldl (downloadStep w cfg) d).errors = d.errors := by
  induction l generalizing d with
  | nil => rfl
  | cons i t ih => rw [List.foldl_cons, ih, (downloadStep_masks w cfg d i).2.1]

theorem downloadFold_completed (w : World) (cfg : Config) (l : List Nat) (d : Driver) (b : Nat)
    (h : d.completed &&& b = b) : (l.foldl (downloadStep w cfg) d).completed &&& b = b := by
  induction l generalizing d with
  | nil => exact h
  | cons i t ih =>
    rw [List.foldl_cons]
    apply ih
    rcases (downloadStep_masks w cfg d i).2.2.2.2 with ⟨hc, _⟩ | ⟨_, hc, _⟩
    · rw [hc]; exact h
    · rw [hc]; exact or_and_of_and _ _ _ h

theorem print_all_stats_calls (d : Driver) (n : Nat) :
    ∃ new : List Call, (print_all_stats d n).calls = new ++ d.calls ∧
      ∀ c ∈ new, ∃ j m, c = Call.torrent j m ∧ m ∈ statsMethods := by
  unfold print_all_stats
  generalize List.range n = l
  induction l generalizing d with
  | nil => exact ⟨[], rfl, by simp⟩
  | cons i t ih =>
    obtain ⟨n2, h2, p2⟩ := ih (print_stats d i)
    refine ⟨n2 ++ (statsMethods.map (Call.torrent i)).reverse, ?_, ?_⟩
    · rw [List.foldl_cons, h2]
      unfold print_stats
      rw [recordAll_calls, List.append_assoc]
    · intro c hc
      rcases List.mem_append.1 hc with hc | hc
      · exact p2 c hc
      · rw [List.mem_reverse, List.mem_map] at hc
        obtain ⟨m, hm, rfl⟩ := hc
        exact ⟨i, m, rfl, hm⟩

/-- The calls of one iteration of the download loop, split around the step of torrent `i`:
the steps of the torrents before it, its own step, the steps of the torrents after it,
`Connection::poll`, and the statistics display. -/
theorem downloadIteration_calls (w : World) (cfg : Config) (d : Driver) (i : Nat)
    (hi : i < cfg.total) :
    ∃ before own after stats : List Call,
      ((List.range i).foldl (downloadStep w cfg) d).calls = before ++ d.calls ∧
      (downloadStep w cfg ((List.range i).foldl (downloadStep w cfg) d) i).calls =
        own ++ ((List.range i).foldl (downloadStep w cfg) d).calls ∧
      (downloadPass w cfg d).calls = after ++ own ++ before ++ d.calls ∧
      (downloadIteration w cfg d).calls = stats ++ Call.poll :: (after ++ own ++ before ++ d.calls) ∧
      (∀ c ∈ before, ∃ j, j ≠ i ∧ ∃ m, c = Call.torrent j m) ∧
      (∀ c ∈ after, ∃ j, j ≠ i ∧ ∃ m, c = Call.torrent j m) ∧
      (∀ c ∈ stats, ∃ j m, c = Call.torrent j m ∧ m ∈ statsMethods) := by
  obtain ⟨before, hb, pb⟩ := downloadFold_calls w cfg (List.range i) d
  obtain ⟨own, ho, _⟩ := downloadStep_calls w cfg ((List.range i).foldl (downloadStep w cfg) d) i
  obtain ⟨after, ha, pa⟩ := downloadFold_calls w cfg (List.range' (i + 1) (cfg.total - (i + 1)))
    (downloadStep w cfg ((List.range i).foldl (downloadStep w cfg) d) i)
  have hpass : (downloadPass w cfg d).calls = after ++ own ++ before ++ d.calls := by
    unfold downloadPass
    rw [range_split cfg.total i hi, List.foldl_append, List.foldl_cons, ha, ho, hb]
    simp
  obtain ⟨stats, hs, ps⟩ := print_all_stats_calls (record (downloadPass w cfg d) .poll) cfg.total
  refine ⟨before, own, after, stats, hb, ho, hpass, ?_, ?_, ?_, ps⟩
  · unfold downloadIteration
    rw [hs, record_calls, hpass]
  · intro c hc
    obtain ⟨j, hj, m, rfl⟩ := pb c hc
    exact ⟨j, by have := List.mem_range.1 hj; omega, m, rfl⟩
  · intro c hc
    obtain ⟨j, hj, m, rfl⟩ := pa c hc
    exact ⟨j, by have := (List.mem_range'_1.1 hj).1; omega, m, rfl⟩

/-- C8, amended: in each iteration of the download loop, for every torrent `i` that is not in
the error set and whose `isFinished()` is false, `checkTrackers` is called in that iteration
if and only if `max_peers == 0` or `activePeers() < max_peers`; for a torrent in the error set
the pass over the torrents performs no operation on it, and the only operations on it in the
iteration are the accessor reads of `print_all_stats`; for a finished torrent neither
`checkTrackers` nor `nextConnection` is called and its bit is added to `completed`. -/
theorem downloadIteration_schedule (w : World) (cfg : Config) (d : Driver) (i : Nat)
    (hi : i < cfg.total) :
    (d.errors &&& bit i = 0 →
      answer w ((List.range i).foldl (downloadStep w cfg) d) (.torrent i .isFinished) = 0 →
      (Call.torrent i .checkTrackers ∈ callsSince d (downloadIteration w cfg d) ↔
        cfg.max_peers = 0 ∨
          answer w (record ((List.range i).foldl (downloadStep w cfg) d) (.torrent i .isFinished))
            (.torrent i .activePeers) < cfg.max_peers)) ∧
    (d.errors &&& bit i ≠ 0 →
      (∀ m, Call.torrent i m ∉ callsSince d (downloadPass w cfg d)) ∧
      (∀ m, Call.torrent i m ∈ callsSince d (downloadIteration w cfg d) → m ∈ statsMethods)) ∧
    (d.errors &&& bit i = 0 →
      answer w ((List.range i).foldl (downloadStep w cfg) d) (.torrent i .isFinished) ≠ 0 →
      Call.torrent i .checkTrackers ∉ callsSince d (downloadIteration w cfg d) ∧
      Call.torrent i .nextConnection ∉ callsSince d (downloadIteration w cfg d) ∧
      (downloadIteration w cfg d).completed &&& bit i = bit i) := by
  obtain ⟨before, own, after, stats, hb, ho, hpass, hiter, pb, pa, ps⟩ :=
    downloadIteration_calls w cfg d i hi
  obtain ⟨new, hn, _, herrd, hfinished, hactive⟩ :=
    downloadStep_calls w cfg ((List.range i).foldl (downloadStep w cfg) d) i
  have hown : new = own := List.append_cancel_right (hn.symm.trans ho)
  subst hown
  have herrs : ((List.range i).foldl (downloadStep w cfg) d).errors = d.errors :=
    downloadFold_errors w cfg _ d
  rw [herrs] at herrd hfinished hactive
  have hmemI : ∀ c, c ∈ callsSince d (downloadIteration w cfg d) ↔
      c ∈ stats ∨ c = Call.poll ∨ c ∈ after ∨ c ∈ new ∨ c ∈ before := by
    intro c
    have e : (downloadIteration w cfg d).calls =
        (stats ++ Call.poll :: (after ++ new ++ before)) ++ d.calls := by
      rw [hiter]; simp
    rw [callsSince_of_append d _ _ e]
    simp only [List.mem_reverse, List.mem_append, List.mem_cons, or_assoc]
  have hmemP : ∀ c, c ∈ callsSince d (downloadPass w cfg d) ↔
      c ∈ after ∨ c ∈ new ∨ c ∈ before := by
    intro c
    have e : (downloadPass w cfg d).calls = (after ++ new ++ before) ++ d.calls := hpass
    rw [callsSince_of_append d _ _ e]
    simp only [List.mem_reverse, List.mem_append, or_assoc]
  have hnotB : ∀ m, Call.torrent i m ∉ before := by
    intro m hm
    obtain ⟨j, hj, m2, h2⟩ := pb _ hm
    injection h2 with h3 _
    exact hj h3.symm
  have hnotA : ∀ m, Call.torrent i m ∉ after := by
    intro m hm
    obtain ⟨j, hj, m2, h2⟩ := pa _ hm
    injection h2 with h3 _
    exact hj h3.symm
  have hstats : ∀ m, Call.torrent i m ∈ stats → m ∈ statsMethods := by
    intro m hm
    obtain ⟨j, m2, h2, h3⟩ := ps _ hm
    injection h2 with _ h4
    rw [h4]; exact h3
  have hkey : ∀ m, m ∉ statsMethods →
      (Call.torrent i m ∈ callsSince d (downloadIteration w cfg d) ↔ Call.torrent i m ∈ new) := by
    intro m hm
    rw [hmemI]
    constructor
    · rintro (h | h | h | h | h)
      · exact absurd (hstats m h) hm
      · exact absurd h (by simp)
      · exact absurd h (hnotA m)
      · exact h
      · exact absurd h (hnotB m)
    · intro h; exact Or.inr (Or.inr (Or.inr (Or.inl h)))
  have hsame : (downloadIteration w cfg d).completed = (downloadPass w cfg d).completed := by
    unfold downloadIteration
    exact (sameMasks_trans (sameMasks_record (downloadPass w cfg d) .poll)
      (sameMasks_print_all_stats _ cfg.total)).2.1
  refine ⟨?_, ?_, ?_⟩
  · intro he hf
    rw [hkey _ (by decide)]
    exact hactive he hf
  · intro he
    have hnil := herrd he
    subst hnil
    constructor
    · intro m hm
      rw [hmemP] at hm
      rcases hm with h | h | h
      · exact hnotA m h
      · simp at h
      · exact hnotB m h
    · intro m hm
      rw [hmemI] at hm
      rcases hm with h | h | h | h | h
      · exact hstats m h
      · exact absurd h (by simp)
      · exact absurd h (hnotA m)
      · simp at h
      · exact absurd h (hnotB m)
  · intro he hf
    obtain ⟨h1, h2, h3⟩ := hfinished he hf
    refine ⟨?_, ?_, ?_⟩
    · rw [hkey _ (by decide)]; exact h1
    · rw [hkey _ (by decide)]; exact h2
    · rw [hsame]
      unfold downloadPass
      rw [range_split cfg.total i hi, List.foldl_append, List.foldl_cons]
      exact downloadFold_completed w cfg _ _ _ h3

/-! ### The driver on the sample environments -/

set_option maxRecDepth 100000

/-- C4 at `--nodownload --torrents a.torrent` (so `noseed` is false) with a torrent that opens
and has trackers: after the set-up loop the driver enters the seeding phase and calls
`hasTrackers`, `nextConnection` (refused here, which ends the loop), `Connection::poll` and
`print_all_stats` before the final report. -/
theorem nodownload_enters_seeding :
    cfgInfoOnly.nodownload = true ∧
    (main worldInfoOnly cfgInfoOnly 2).map (callsSince (setup worldInfoOnly cfgInfoOnly)) =
      some ([Call.torrent 0 .hasTrackers, Call.torrent 0 .nextConnection, Call.poll] ++
        statsMethods.map (Call.torrent 0) ++ [Call.torrent 0 .meta, Call.torrent 0 .name]) ∧
    (main worldInfoOnly cfgInfoOnly 2).map
        (fun e => (decide (Call.torrent 0 .nextConnection ∈ e.calls), decide (Call.poll ∈ e.calls))) =
      some (true, true) := by
  decide

/-- C5 at `--peers 0` with one torrent that is already complete, has trackers and accepts
every connection request: in two iterations of the seeding loop `nextConnection` succeeds
twice, the peer count 0 is compared with the cap 0, and `checkTrackers` is never called. -/
theorem seeding_unbounded_skips_trackers :
    cfgUnbounded.max_peers = 0 ∧
    downloadOver cfgUnbounded (downloadPhase worldSeeding cfgUnbounded 2
      (setup worldSeeding cfgUnbounded)) = true ∧
    callsSince (downloadPhase worldSeeding cfgUnbounded 2 (setup worldSeeding cfgUnbounded))
        (seedPhase worldSeeding cfgUnbounded 2
          (downloadPhase worldSeeding cfgUnbounded 2 (setup worldSeeding cfgUnbounded))) =
      [Call.torrent 0 .hasTrackers] ++
        ([Call.torrent 0 .nextConnection, Call.torrent 0 .activePeers, Call.poll] ++
          statsMethods.map (Call.torrent 0)) ++
        ([Call.torrent 0 .nextConnection, Call.torrent 0 .activePeers, Call.poll] ++
          statsMethods.map (Call.torrent 0)) ∧
    Call.torrent 0 .checkTrackers ∉
      callsSince (downloadPhase worldSeeding cfgUnbounded 2 (setup worldSeeding cfgUnbounded))
        (seedPhase worldSeeding cfgUnbounded 2
          (downloadPhase worldSeeding cfgUnbounded 2 (setup worldSeeding cfgUnbounded))) := by
  decide

/-- With `max_peers = 0` the body of the seeding `for` loop never calls `checkTrackers`: it
calls `nextConnection` and, when that succeeded, `activePeers`, whose result is never below 0. -/
theorem seedStep_unbounded (w : World) (cfg : Config) (d : Driver) (i j : Nat)
    (h : cfg.max_peers = 0) : Call.torrent j .checkTrackers ∉ (seedStep w cfg d i).calls ↔
      Call.torrent j .checkTrackers ∉ d.calls := by
  unfold seedStep
  simp only [h, Nat.not_lt_zero, if_false]
  split <;> simp

/-- The seeding step at `max_peers = 0` in the sample environment. -/
theorem seedStep_unbounded_witness :
    Call.torrent 0 .checkTrackers ∉
        (seedStep worldSeeding cfgUnbounded (setup worldSeeding cfgUnbounded) 0).calls ↔
      Call.torrent 0 .checkTrackers ∉ (setup worldSeeding cfgUnbounded).calls :=
  seedStep_unbounded worldSeeding cfgUnbounded (setup worldSeeding cfgUnbounded) 0 0 (by decide)

/-- C8, as stated, fails for a torrent in the error set: with torrent 0 errored and torrent 2
downloading, one iteration of the download loop reads the accessors of torrent 0 in
`print_all_stats`. -/
theorem downloadIteration_reads_errored_torrent :
    (setup worldMixed cfgMixed).errors &&& bit 0 ≠ 0 ∧
    downloadGuard cfgMixed (setup worldMixed cfgMixed) = true ∧
    downloadCond (setup worldMixed cfgMixed) = true ∧
    Call.torrent 0 .meta ∈
      callsSince (setup worldMixed cfgMixed)
        (downloadIteration worldMixed cfgMixed (setup worldMixed cfgMixed)) ∧
    (callsSince (setup worldMixed cfgMixed)
        (downloadIteration worldMixed cfgMixed (setup worldMixed cfgMixed))).filter (onTorrent 0) =
      statsMethods.map (Call.torrent 0) ∧
    ¬ (∀ m, Call.torrent 0 m ∉
      callsSince (setup worldMixed cfgMixed)
        (downloadIteration worldMixed cfgMixed (setup worldMixed cfgMixed))) := by
  have h : Call.torrent 0 .meta ∈
      callsSince (setup worldMixed cfgMixed)
        (downloadIteration worldMixed cfgMixed (setup worldMixed cfgMixed)) := by decide
  exact ⟨by decide, by decide, by decide, h, by decide, fun hall => hall _ h⟩


/-- C8, amended, at torrent 2 of the three-torrent environment, in the first iteration of the
download loop: it is neither errored nor finished and has 3 active peers under a cap of 30,
and `checkTrackers` is called on it. -/
theorem downloadIteration_schedule_witness :
    2 < cfgMixed.total ∧
    (setup worldMixed cfgMixed).errors &&& bit 2 = 0 ∧
    answer worldMixed ((List.range 2).foldl (downloadStep worldMixed cfgMixed)
      (setup worldMixed cfgMixed)) (.torrent 2 .isFinished) = 0 ∧
    Call.torrent 2 .checkTrackers ∈ callsSince (setup worldMixed cfgMixed)
      (downloadIteration worldMixed cfgMixed (setup worldMixed cfgMixed)) ∧
    ((setup worldMixed cfgMixed).errors &&& bit 2 = 0 →
      answer worldMixed ((List.range 2).foldl (downloadStep worldMixed cfgMixed)
        (setup worldMixed cfgMixed)) (.torrent 2 .isFinished) = 0 →
      (Call.torrent 2 .checkTrackers ∈ callsSince (setup worldMixed cfgMixed)
          (downloadIteration worldMixed cfgMixed (setup worldMixed cfgMixed)) ↔
        cfgMixed.max_peers = 0 ∨
          answer worldMixed (record ((List.range 2).foldl (downloadStep worldMixed cfgMixed)
            (setup worldMixed cfgMixed)) (.torrent 2 .isFinished))
            (.torrent 2 .activePeers) < cfgMixed.max_peers)) ∧
    ((setup worldMixed cfgMixed).errors &&& bit 2 ≠ 0 →
      (∀ m, Call.torrent 2 m ∉ callsSince (setup worldMixed cfgMixed)
        (downloadPass worldMixed cfgMixed (setup worldMixed cfgMixed))) ∧
      (∀ m, Call.torrent 2 m ∈ callsSince (setup worldMixed cfgMixed)
        (downloadIteration worldMixed cfgMixed (setup worldMixed cfgMixed)) → m ∈ statsMethods)) ∧
    ((setup worldMixed cfgMixed).errors &&& bit 2 = 0 →
      answer worldMixed ((List.range 2).foldl (downloadStep worldMixed cfgMixed)
        (setup worldMixed cfgMixed)) (.torrent 2 .isFinished) ≠ 0 →
      Call.torrent 2 .checkTrackers ∉ callsSince (setup worldMixed cfgMixed)
        (downloadIteration worldMixed cfgMixed (setup worldMixed cfgMixed)) ∧
      Call.torrent 2 .nextConnection ∉ callsSince (setup worldMixed cfgMixed)
        (downloadIteration worldMixed cfgMixed (setup worldMixed cfgMixed)) ∧
      (downloadIteration worldMixed cfgMixed (setup worldMixed cfgMixed)).completed &&& bit 2 =
        bit 2) :=
  ⟨by decide, by decide, by decide, by decide,
    downloadIteration_schedule worldMixed cfgMixed (setup worldMixed cfgMixed) 2 (by decide)⟩

/-- C9 on the three-torrent environment: the run ends after three iterations of the download
loop and the report reads went wrong, completed, completed. -/
theorem masks_partition_witness :
    cfgMixed.total ≤ 31 ∧
    downloadOver cfgMixed (downloadPhase worldMixed cfgMixed 5 (setup worldMixed cfgMixed)) = true ∧
    (main worldMixed cfgMixed 5).map (fun e => e.report) =
      some [Label.WentWrong, Label.Completed, Label.Completed] ∧
    ((∀ m ∈ (downloadPhase worldMixed cfgMixed 5 (setup worldMixed cfgMixed)).trail, MasksOk m) ∧
    MasksOk (downloadPhase worldMixed cfgMixed 5 (setup worldMixed cfgMixed)).masks ∧
    (downloadOver cfgMixed (downloadPhase worldMixed cfgMixed 5 (setup worldMixed cfgMixed)) = true →
      ∀ i, i < cfgMixed.total →
        ((downloadPhase worldMixed cfgMixed 5 (setup worldMixed cfgMixed)).completed &&& bit i ≠ 0 ∧
          (downloadPhase worldMixed cfgMixed 5 (setup worldMixed cfgMixed)).errors &&& bit i = 0) ∨
        ((downloadPhase worldMixed cfgMixed 5 (setup worldMixed cfgMixed)).completed &&& bit i = 0 ∧
          (downloadPhase worldMixed cfgMixed 5 (setup worldMixed cfgMixed)).errors &&& bit i ≠ 0)) ∧
    (∀ e, main worldMixed cfgMixed 5 = some e →
      e.report.length = cfgMixed.total ∧
      (∀ l ∈ e.report, l = Label.Completed ∨ l = Label.WentWrong) ∧
      Label.FailedToSeed ∉ e.report)) :=
  ⟨by decide, by decide, by decide, masks_partition worldMixed cfgMixed 5 (by decide)⟩

/-! ### The driver with both `nodownload` and `noseed` set -/

theorem readOnly_record (d : Driver) (i : Nat) (m : Method) (hm : m ∈ readOnlyMethods)
    (h : ReadOnly d) : ReadOnly (record d (.torrent i m)) := by
  intro c hc
  rw [record_calls, List.mem_cons] at hc
  rcases hc with rfl | hc
  · exact ⟨i, m, rfl, hm⟩
  · exact h c hc

theorem readOnly_of_calls_eq (d e : Driver) (h : e.calls = d.calls) (hd : ReadOnly d) :
    ReadOnly e := by
  intro c hc
  rw [h] at hc
  exact hd c hc

theorem setupStep_readOnly (w : World) (cfg : Config) (d : Driver) (i : Nat)
    (hn : cfg.nodownload = true) (h : ReadOnly d) : ReadOnly (setupStep w cfg d i) := by
  have h0 : ReadOnly (record (orTotalBits d i) (.torrent i .open_)) :=
    readOnly_record _ i _ (by decide) (readOnly_of_calls_eq d _ rfl h)
  unfold setupStep
  simp only [hn, if_true]
  split
  · exact readOnly_of_calls_eq _ _ rfl h0
  · apply readOnly_of_calls_eq _ _ (orCompleted_calls _ i)
    intro c hc
    rw [recordAll_calls, List.mem_append, List.mem_reverse] at hc
    rcases hc with hc | hc
    · simp only [List.mem_cons, List.mem_singleton, List.not_mem_nil, or_false] at hc
      rcases hc with rfl | rfl | rfl | rfl | rfl | rfl | rfl | rfl <;>
        exact ⟨i, _, rfl, by decide⟩
    · exact readOnly_record _ i _ (by decide) h0 c hc

theorem reportStep_readOnly (d : Driver) (i : Nat) (h : ReadOnly d) :
    ReadOnly (reportStep d i) := by
  unfold reportStep
  exact readOnly_record _ i _ (by decide)
    (readOnly_of_calls_eq (record d (.torrent i .meta)) _ rfl (readOnly_record d i _ (by decide) h))

/-- With `nodownload` and `noseed` both set the driver only inspects the torrents: for every
environment and every number of torrents `main` ends, and every call it makes is `open` or a
read-only accessor; there is no `prepare`, `finish`, `checkTrackers`, `nextConnection` and no
`Connection::poll`. -/
theorem nodownload_noseed_read_only (w : World) (cfg : Config) (fuel : Nat)
    (hn : cfg.nodownload = true) (hs : cfg.noseed = true) :
    ∃ e, main w cfg fuel = some e ∧ ReadOnly e ∧ Call.poll ∉ e.calls ∧
      ∀ i p s, Call.torrent i (.prepare p s) ∉ e.calls ∧ Call.torrent i .finish ∉ e.calls ∧
        Call.torrent i .checkTrackers ∉ e.calls ∧ Call.torrent i .nextConnection ∉ e.calls := by
  have hsetup : ReadOnly (setup w cfg) := by
    unfold setup
    exact foldl_range_inv (setupStep w cfg) (fun _ e => ReadOnly e) cfg.total (initial cfg)
      (by intro c hc; simp [initial] at hc)
      (fun i e _ he => setupStep_readOnly w cfg e i hn he)
  have hdl : downloadPhase w cfg fuel (setup w cfg) = setup w cfg := by
    simp [downloadPhase, downloadGuard, hn]
  have hover : downloadOver cfg (setup w cfg) = true := by
    simp [downloadOver, downloadGuard, hn]
  have hsp : seedPhase w cfg fuel (setup w cfg) = setup w cfg := by
    simp [seedPhase, seedGuard, hs]
  have hsover : seedOver cfg (setup w cfg) = true := by
    simp [seedOver, seedGuard, hs]
  have hmain : main w cfg fuel = some (finalReport cfg (setup w cfg)) := by
    simp [main, hdl, hover, hsp, hsover]
  have hro : ReadOnly (finalReport cfg (setup w cfg)) := by
    unfold finalReport
    exact foldl_range_inv reportStep (fun _ e => ReadOnly e) cfg.total (setup w cfg) hsetup
      (fun i e _ he => reportStep_readOnly e i he)
  refine ⟨_, hmain, hro, ?_, ?_⟩
  · intro hc
    obtain ⟨i, m, h1, _⟩ := hro _ hc
    exact absurd h1 (by simp)
  · intro i p s
    refine ⟨?_, ?_, ?_, ?_⟩ <;>
    · intro hc
      obtain ⟨j, m, h1, h2⟩ := hro _ hc
      injection h1 with _ h3
      rw [← h3] at h2
      simp [readOnlyMethods] at h2

/-- The information display on one torrent with `-e` given: every call is read-only. -/
theorem nodownload_noseed_read_only_witness :
    ∃ e, main worldInfoOnly { cfgInfoOnly with noseed := true } 0 = some e ∧ ReadOnly e ∧
      Call.poll ∉ e.calls ∧
      ∀ i p s, Call.torrent i (.prepare p s) ∉ e.calls ∧ Call.torrent i .finish ∉ e.calls ∧
        Call.torrent i .checkTrackers ∉ e.calls ∧ Call.torrent i .nextConnection ∉ e.calls :=
  nodownload_noseed_read_only worldInfoOnly { cfgInfoOnly with noseed := true } 0 rfl rfl

end CTorrent
